import Mathlib

/-!
Overlap detection (`src/assemble/overlap.cpp`).

A shallow embedding of `OverlapDetector` and a verification of its specification.

Conventions of the embedding.

* `int32_t` values are mathematical integers (`Int`).  Signed overflow is undefined in the
  source, so every statement below is about runs in which no `int32_t` operation overflows;
  the one place where the source converts a signed value to an unsigned one
  (`(size_t)_minimumOverlap`) is modelled with an explicit reduction modulo `2 ^ 64`.
* `size_t` read lengths are natural numbers; where the source passes one to an `int32_t`
  parameter (`curLen` and `extLen` of `goodStart` and `overlapTest`) it is cast to `Int`.
  The source narrows the value there (`toInt32`), which leaves lengths below `2 ^ 31`
  unchanged; the statement that compares coordinates with the actual read lengths assumes
  this bound.
* `std::vector` is `List`; `std::set<size_t>` is a strictly ascending `List Nat`;
  the maps keyed by read id are association lists in order of first insertion (the source
  iterates an `unordered_map`, whose order is unspecified; no statement below depends on it).
* `.at(key)` on a missing key throws; `vec[vec.size() / 2]` on an empty vector is undefined.
  Both are modelled by `none`.
* Logging and the progress reporter carry no state of interest and are left out.
-/

namespace Overlap

/-! ## Data model -/

/-- Read identifier (`FastaRecord::Id`). -/
abbrev ReadId := Nat

/-- K-mer value. -/
abbrev Kmer := Nat

/-- Entry of the per-read index: a k-mer and its position on the read. -/
structure KmerPosition where
  kmer : Kmer
  position : Int
deriving DecidableEq, Repr

/-- Entry of the per-k-mer index: a read and the position of the k-mer on it. -/
structure ReadPosition where
  readId : ReadId
  position : Int
deriving DecidableEq, Repr

/-- The record `OverlapRange`. -/
structure OverlapRange where
  curId : ReadId
  curBegin : Int
  curEnd : Int
  leftShift : Int
  rightShift : Int
  extId : ReadId
  extBegin : Int
  extEnd : Int
deriving DecidableEq, Repr

/-- Modelled from the spec: the constructor `OverlapRange(curId, extId, curInit, extInit)` is
declared in `overlap.h`, which is not part of the sources; it builds a single-point range
(`curBegin = curEnd = curInit`, `extBegin = extEnd = extInit`).  The shifts, which the spec
leaves open, start at `0`. -/
def OverlapRange.init (curId extId : ReadId) (curInit extInit : Int) : OverlapRange :=
  { curId := curId, curBegin := curInit, curEnd := curInit, leftShift := 0, rightShift := 0,
    extId := extId, extBegin := extInit, extEnd := extInit }

/-- Modelled from the spec: `curRange()` of `overlap.h` is `curEnd − curBegin`. -/
def OverlapRange.curRange (o : OverlapRange) : Int := o.curEnd - o.curBegin

/-- Modelled from the spec: `extRange()` of `overlap.h` is `extEnd − extBegin`. -/
def OverlapRange.extRange (o : OverlapRange) : Int := o.extEnd - o.extBegin

/-- Modelled from the spec: `reverse()` of `overlap.h` swaps `(curId, extId)`,
`(curBegin, extBegin)`, `(curEnd, extEnd)` and negates the shifts. -/
def OverlapRange.reverse (o : OverlapRange) : OverlapRange :=
  { curId := o.extId, curBegin := o.extBegin, curEnd := o.extEnd,
    leftShift := -o.leftShift, rightShift := -o.rightShift,
    extId := o.curId, extBegin := o.curBegin, extEnd := o.curEnd }

/-- Modelled from the spec: `complement(curLen, extLen)` of `overlap.h` maps each coordinate
`p` on a read of length `L` to `L − p` and swaps begin and end; the ids become those of the
reverse-complement reads (`rc`, the strand flip of `FastaRecord::Id`, is a parameter).  The
spec fixes nothing about the shifts, which are kept. -/
def OverlapRange.complement (rc : ReadId → ReadId) (o : OverlapRange) (curLen extLen : Int) :
    OverlapRange :=
  { curId := rc o.curId, curBegin := curLen - o.curEnd, curEnd := curLen - o.curBegin,
    leftShift := o.leftShift, rightShift := o.rightShift,
    extId := rc o.extId, extBegin := extLen - o.extEnd, extEnd := extLen - o.extBegin }

/-- The members of `OverlapDetector` that the functions of `overlap.cpp` read: the three
tolerances, the sequence container (`seqIds` are the keys of `getIndex()` in iteration order)
and the two views of the k-mer index. -/
structure Detector where
  minimumOverlap : Int
  maximumJump : Int
  maximumOverhang : Int
  seqIds : List ReadId
  seqLen : ReadId → Nat
  rc : ReadId → ReadId
  byRead : ReadId → Option (List KmerPosition)
  byKmer : Kmer → Option (List ReadPosition)

/-- Result of `jumpTest`. -/
inductive JumpRes where
  | J_END
  | J_INCONS
  | J_CLOSE
  | J_FAR
deriving DecidableEq, Repr

/-- The C function `abs` on integers. -/
def iabs (x : Int) : Int := if x < 0 then -x else x

/-- Conversion `(size_t)x` of a signed value on a 64-bit target. -/
def toSizeT (x : Int) : Nat := (x % 2 ^ 64).toNat

/-- Conversion of a `size_t` value to `int32_t`, as it happens where `getReadOverlaps`
passes `curLen` and `extLen` to `goodStart` and `overlapTest`: the value modulo `2 ^ 32`,
read as a signed number. -/
def toInt32 (n : Nat) : Int := ((n : Int) + 2 ^ 31) % 2 ^ 32 - 2 ^ 31

/-! ## Predicates -/

/-- `OverlapDetector::goodStart`. -/
def goodStart (d : Detector) (curPos extPos curLen extLen : Int) : Bool :=
  decide (min curPos extPos < d.maximumOverhang) &&
  decide (extPos < extLen - d.minimumOverlap) &&
  decide (curPos < curLen - d.minimumOverlap)

/-- `OverlapDetector::jumpTest`; `CLOSE_FRAC = 8`, `FAR_FRAC = 2`, and `/` on `int` truncates
towards zero. -/
def jumpTest (d : Detector) (curPrev curNext extPrev extNext : Int) : JumpRes :=
  if curNext - curPrev > d.maximumJump then JumpRes.J_END
  else if 0 < curNext - curPrev ∧ curNext - curPrev < d.maximumJump ∧
      0 < extNext - extPrev ∧ extNext - extPrev < d.maximumJump then
    if iabs ((curNext - curPrev) - (extNext - extPrev)) < Int.tdiv d.maximumJump 8 then
      JumpRes.J_CLOSE
    else if iabs ((curNext - curPrev) - (extNext - extPrev)) < Int.tdiv d.maximumJump 2 then
      JumpRes.J_FAR
    else JumpRes.J_INCONS
  else JumpRes.J_INCONS

/-- `OverlapDetector::overlapTest`. -/
def overlapTest (d : Detector) (ovlp : OverlapRange) (curLen extLen : Int) : Bool :=
  if ovlp.curRange < d.minimumOverlap ∨ ovlp.extRange < d.minimumOverlap then false
  else if iabs (ovlp.curRange - ovlp.extRange) > d.maximumJump then false
  else if min ovlp.curBegin ovlp.extBegin > d.maximumOverhang then false
  else if min (curLen - ovlp.curEnd) (extLen - ovlp.extEnd) > d.maximumOverhang then false
  else true

/-! ## Containers -/

/-- `std::set<size_t>::insert` on a strictly ascending list. -/
def setInsert (x : Nat) : List Nat → List Nat
  | [] => [x]
  | y :: ys => if x < y then x :: y :: ys else if x = y then y :: ys else y :: setInsert x ys

/-- A map from read ids to path vectors (`activePaths`, `_overlapIndex`). -/
abbrev PathMap := List (ReadId × List OverlapRange)

/-- The vector stored under `k`; empty when `k` is not a key. -/
def mapGet : PathMap → ReadId → List OverlapRange
  | [], _ => []
  | (k', v) :: m, k => if k' = k then v else mapGet m k

/-- Whether `k` is a key (`count(k)`). -/
def mapHas : PathMap → ReadId → Bool
  | [], _ => false
  | (k', _) :: m, k => if k' = k then true else mapHas m k

/-- Store `v` under `k`, creating the key when it is new. -/
def mapSet : PathMap → ReadId → List OverlapRange → PathMap
  | [], k, v => [(k, v)]
  | (k', v') :: m, k, v => if k' = k then (k, v) :: m else (k', v') :: mapSet m k v

/-- The effect of evaluating `m[k]`: the key exists afterwards, with an empty vector when it
was new. -/
def mapTouch (m : PathMap) (k : ReadId) : PathMap := mapSet m k (mapGet m k)

/-- The statement `m[k].push_back(o)`. -/
def mapPush (m : PathMap) (k : ReadId) (o : OverlapRange) : PathMap :=
  mapSet m k (mapGet m k ++ [o])

/-! ## Chaining engine -/

/-- `MAX_PATHS` of `getReadOverlaps`. -/
def MAX_PATHS : Nat := 100

/-- The locals of the scan over `extPaths` in `getReadOverlaps`. -/
structure ScanState where
  maxCloseId : Nat
  maxFarId : Nat
  maxCloseLen : Int
  maxFarLen : Int
  extendsClose : Bool
  extendsFar : Bool
  eraseMarks : List Nat
deriving DecidableEq, Repr

/-- The values of the scan locals before the loop. -/
def ScanState.init : ScanState :=
  { maxCloseId := 0, maxFarId := 0, maxCloseLen := 0, maxFarLen := 0,
    extendsClose := false, extendsFar := false, eraseMarks := [] }

/-- Body of the scan loop for the path `p = extPaths[pathId]`.  After `maxCloseId = pathId`
the source reads `extPaths[maxCloseId].curEnd`, which is `p.curEnd` (same for `maxFarId`). -/
def scanStep (d : Detector) (curPos extPos : Int) (s : ScanState) (pathId : Nat)
    (p : OverlapRange) : ScanState :=
  let jumpLength := curPos - p.curEnd
  match jumpTest d p.curEnd curPos p.extEnd extPos with
  | JumpRes.J_END => s
  | JumpRes.J_INCONS => s
  | JumpRes.J_CLOSE =>
    let s1 := { s with eraseMarks := setInsert pathId s.eraseMarks }
    if jumpLength > s1.maxCloseLen then
      { s1 with extendsClose := true, maxCloseId := pathId, maxCloseLen := curPos - p.curEnd }
    else s1
  | JumpRes.J_FAR =>
    if jumpLength > s.maxFarLen then
      { s with extendsFar := true, maxFarId := pathId, maxFarLen := curPos - p.curEnd }
    else s

/-- The scan loop `for (pathId = 0; pathId < extPaths.size(); ++pathId)`, run on the paths
from index `pathId` on. -/
def scanPaths (d : Detector) (curPos extPos : Int) :
    List OverlapRange → Nat → ScanState → ScanState
  | [], _, s => s
  | p :: rest, pathId, s =>
    scanPaths d curPos extPos rest (pathId + 1) (scanStep d curPos extPos s pathId p)

/-- The two assignments `extPaths[i].curEnd = curPos; extPaths[i].extEnd = extPos`. -/
def setEnds (extPaths : List OverlapRange) (i : Nat) (curPos extPos : Int) :
    List OverlapRange :=
  match extPaths[i]? with
  | none => extPaths
  | some p => extPaths.set i { p with curEnd := curPos, extEnd := extPos }

/-- The statements `extPaths.push_back(extPaths[i]); extPaths.back().curEnd = curPos;
extPaths.back().extEnd = extPos`. -/
def pushCopy (extPaths : List OverlapRange) (i : Nat) (curPos extPos : Int) :
    List OverlapRange :=
  match extPaths[i]? with
  | none => extPaths
  | some p => extPaths ++ [{ p with curEnd := curPos, extEnd := extPos }]

/-- The search for the path of smallest `curRange()`: the loop over `i`, run on the paths
from index `i` on, with the current `shortestId` and `shortestLength`. -/
def shortestFrom : List OverlapRange → Nat → Nat → Int → Nat
  | [], _, shortestId, _ => shortestId
  | p :: rest, i, shortestId, shortestLength =>
    if p.curRange < shortestLength then shortestFrom rest (i + 1) i p.curRange
    else shortestFrom rest (i + 1) shortestId shortestLength

/-- The index marked by the cap enforcement (`shortestId` after the loop). -/
def shortestId (extPaths : List OverlapRange) : Nat :=
  match extPaths with
  | [] => 0
  | p :: _ => shortestFrom extPaths 0 0 p.curRange

/-- One step of the clean-up: `extPaths[i] = extPaths.back(); extPaths.pop_back()`. -/
def eraseAt (extPaths : List OverlapRange) (i : Nat) : List OverlapRange :=
  match extPaths.getLast? with
  | none => extPaths
  | some b => (extPaths.set i b).dropLast

/-- The clean-up loop: the marks are visited from the largest to the smallest. -/
def erasePass (extPaths : List OverlapRange) (eraseMarks : List Nat) : List OverlapRange :=
  eraseMarks.reverse.foldl eraseAt extPaths

/-- The erase marks after `if (extendsClose) eraseMarks.erase(maxCloseId)`. -/
def marksAfterClose (s : ScanState) : List Nat :=
  if s.extendsClose then s.eraseMarks.erase s.maxCloseId else s.eraseMarks

/-- The paths after the three updates (best close extension, best far extension, new path)
and before the cap enforcement. -/
def updatePaths (d : Detector) (currentReadId extId : ReadId) (curLen extLen : Int)
    (curPos extPos : Int) (s : ScanState) (extPaths : List OverlapRange) :
    List OverlapRange :=
  let paths1 := if s.extendsClose then setEnds extPaths s.maxCloseId curPos extPos else extPaths
  let paths2 := if s.extendsFar then pushCopy paths1 s.maxFarId curPos extPos else paths1
  if !s.extendsClose && !s.extendsFar && goodStart d curPos extPos curLen extLen then
    paths2 ++ [OverlapRange.init currentReadId extId curPos extPos]
  else paths2

/-- The erase marks after the cap enforcement. -/
def capMarks (paths : List OverlapRange) (marks : List Nat) : List Nat :=
  if paths.length > MAX_PATHS then setInsert (shortestId paths) marks else marks

/-- The body of the inner loop of `getReadOverlaps` from the scan to the clean-up, for one
hit `(curPos, extPos)` and the path vector `extPaths` of the extension read. -/
def processHit (d : Detector) (currentReadId extId : ReadId) (curLen extLen : Int)
    (curPos extPos : Int) (extPaths : List OverlapRange) : List OverlapRange :=
  let s := scanPaths d curPos extPos extPaths 0 ScanState.init
  let paths := updatePaths d currentReadId extId curLen extLen curPos extPos s extPaths
  erasePass paths (capMarks paths (marksAfterClose s))

/-- The body of the inner loop of `getReadOverlaps` for the occurrence `extReadPos` of the
k-mer found at `curPos` on the current read. -/
def processExtHit (d : Detector) (currentReadId : ReadId) (curLen : Nat) (curPos : Int)
    (activePaths : PathMap) (extReadPos : ReadPosition) : PathMap :=
  if extReadPos.readId = currentReadId then activePaths
  else
    let extPos := extReadPos.position
    let extPaths := mapGet activePaths extReadPos.readId
    let extLen := d.seqLen extReadPos.readId
    if extLen < toSizeT d.minimumOverlap then mapTouch activePaths extReadPos.readId
    else
      mapSet activePaths extReadPos.readId
        (processHit d currentReadId extReadPos.readId curLen extLen curPos extPos extPaths)

/-- The two nested loops of `getReadOverlaps`, run on the k-mers `kmers` of the current
read; `none` when `kmerIndex.at` throws. -/
def chainLoop (d : Detector) (currentReadId : ReadId) (curLen : Nat) :
    List KmerPosition → PathMap → Option PathMap
  | [], activePaths => some activePaths
  | curKmerPos :: rest, activePaths =>
    match d.byKmer curKmerPos.kmer with
    | none => none
    | some occs =>
      chainLoop d currentReadId curLen rest
        (occs.foldl (processExtHit d currentReadId curLen curKmerPos.position) activePaths)

/-! ## Shift estimation -/

/-- Function `median`: full sort, then the element at index `size / 2`; `none` stands for
the out-of-range access on an empty vector. -/
def median (vec : List Int) : Option Int :=
  (vec.insertionSort (fun a b => a ≤ b))[vec.length / 2]?

/-- The shifts pushed by the inner loop of `addOverlapShifts` for one k-mer of the current
read. -/
def shiftsOfKmer (ovlp : OverlapRange) (curKmer : KmerPosition) (occs : List ReadPosition) :
    List Int :=
  (occs.filter (fun extKmer => decide (extKmer.readId = ovlp.extId) &&
      decide (ovlp.extBegin ≤ extKmer.position) &&
      decide (extKmer.position ≤ ovlp.extEnd))).map
    (fun extKmer => curKmer.position - extKmer.position)

/-- The vector `ovlpShifts` of `addOverlapShifts`; `none` when `.at` throws. -/
def collectShifts (d : Detector) (ovlp : OverlapRange) : List KmerPosition → Option (List Int)
  | [] => some []
  | curKmer :: rest =>
    if ovlp.curBegin ≤ curKmer.position ∧ curKmer.position ≤ ovlp.curEnd then
      match d.byKmer curKmer.kmer with
      | none => none
      | some occs =>
        match collectShifts d ovlp rest with
        | none => none
        | some more => some (shiftsOfKmer ovlp curKmer occs ++ more)
    else collectShifts d ovlp rest

/-- `OverlapDetector::addOverlapShifts`, returning the updated overlap. -/
def addOverlapShifts (d : Detector) (ovlp : OverlapRange) : Option OverlapRange :=
  match d.byRead ovlp.curId with
  | none => none
  | some kmers =>
    match collectShifts d ovlp kmers with
    | none => none
    | some ovlpShifts =>
      match median ovlpShifts with
      | none => none
      | some m =>
        some { ovlp with
          leftShift := m
          rightShift := (d.seqLen ovlp.extId : Int) - (d.seqLen ovlp.curId : Int) + m }

/-! ## Reduction of the path sets -/

/-- Body of the loop over the paths of one extension read: the pair
`(maxOverlap, passedTest)`. -/
def reduceStep (d : Detector) (curLen extLen : Int) (s : OverlapRange × Bool)
    (ovlp : OverlapRange) : OverlapRange × Bool :=
  if overlapTest d ovlp curLen extLen then
    (if s.1.curRange < ovlp.curRange then ovlp else s.1, true)
  else s

/-- The pair `(maxOverlap, passedTest)` after the loop over the paths of one extension read;
`maxOverlap` starts as `OverlapRange(0, 0, 0, 0)`. -/
def reducePaths (d : Detector) (curLen extLen : Int) (paths : List OverlapRange) :
    OverlapRange × Bool :=
  paths.foldl (reduceStep d curLen extLen) (OverlapRange.init 0 0 0 0, false)

/-- The loop over `activePaths` that fills `detectedOverlaps`. -/
def reduceAll (d : Detector) (curLen : Nat) : PathMap → Option (List OverlapRange)
  | [] => some []
  | ap :: rest =>
    let r := reducePaths d curLen (d.seqLen ap.1) ap.2
    if r.2 then
      match addOverlapShifts d r.1 with
      | none => none
      | some o =>
        match reduceAll d curLen rest with
        | none => none
        | some os => some (o :: os)
    else reduceAll d curLen rest

/-- `OverlapDetector::getReadOverlaps`. -/
def getReadOverlaps (d : Detector) (currentReadId : ReadId) : Option (List OverlapRange) :=
  match d.byRead currentReadId with
  | none => some []
  | some kmers =>
    match chainLoop d currentReadId (d.seqLen currentReadId) kmers [] with
    | none => none
    | some activePaths => reduceAll d (d.seqLen currentReadId) activePaths

/-! ## Driver -/

/-- The shared state of the workers: `_overlapMatrix`, `_overlapIndex`, and (for the
statements about the job loop) the list of reads that were passed to `getReadOverlaps`. -/
structure WorkerState where
  overlapMatrix : List (ReadId × ReadId)
  overlapIndex : PathMap
  queried : List ReadId
deriving DecidableEq, Repr

/-- `_overlapMatrix.insert(key)`. -/
def matrixInsert (m : List (ReadId × ReadId)) (key : ReadId × ReadId) :
    List (ReadId × ReadId) :=
  if key ∈ m then m else m ++ [key]

/-- The statements `_overlapMatrix.insert(...); _overlapIndex[ovlp.curId].push_back(ovlp)`. -/
def appendVariant (st : WorkerState) (ovlp : OverlapRange) : WorkerState :=
  { st with
    overlapMatrix := matrixInsert st.overlapMatrix (ovlp.curId, ovlp.extId)
    overlapIndex := mapPush st.overlapIndex ovlp.curId ovlp }

/-- Body of the loop `for (auto ovlp : detectedOverlaps)` of `parallelWorker`. -/
def commitOverlap (d : Detector) (st : WorkerState) (ovlp : OverlapRange) : WorkerState :=
  if (ovlp.curId, ovlp.extId) ∈ st.overlapMatrix then st
  else
    let st1 := appendVariant st ovlp
    let o1 := ovlp.reverse
    let st2 := appendVariant st1 o1
    let curLen := d.seqLen o1.curId
    let extLen := d.seqLen o1.extId
    let o2 := o1.complement d.rc curLen extLen
    let st3 := appendVariant st2 o2
    let o3 := o2.reverse
    appendVariant st3 o3

/-- One iteration of the loop of `parallelWorker` for the job `readId`; `none` when
`getReadOverlaps` fails. -/
def workerStep (d : Detector) (st : WorkerState) (readId : ReadId) : Option WorkerState :=
  let st1 := { st with overlapIndex := mapTouch st.overlapIndex readId }
  if d.seqLen readId < toSizeT d.minimumOverlap then some st1
  else
    match getReadOverlaps d readId with
    | none => none
    | some detectedOverlaps =>
      some (detectedOverlaps.foldl (commitOverlap d)
        { st1 with queried := st1.queried ++ [readId] })

/-- `OverlapDetector::parallelWorker` run by a single thread on the jobs that are left in
the queue (`_jobQueue` from `_nextJob` on). -/
def parallelWorker (d : Detector) : List ReadId → WorkerState → Option WorkerState
  | [], st => some st
  | readId :: rest, st =>
    match workerStep d st readId with
    | none => none
    | some st1 => parallelWorker d rest st1

/-- `OverlapDetector::findAllOverlaps` with one worker, before the final
`_overlapMatrix.clear()`: the job queue holds the keys of the sequence container and the
worker starts from an empty matrix and an empty index. -/
def findAllOverlaps (d : Detector) : Option WorkerState :=
  parallelWorker d d.seqIds { overlapMatrix := [], overlapIndex := [], queried := [] }

/-! ## Sample inputs -/

/-- The literal configuration of the specification's scenarios (`minimumOverlap = 10`,
`maximumJump = 8`, `maximumOverhang = 5`) over an empty index. -/
def scenarioConfig : Detector :=
  { minimumOverlap := 10, maximumJump := 8, maximumOverhang := 5,
    seqIds := [], seqLen := fun _ => 0, rc := fun r => r,
    byRead := fun _ => none, byKmer := fun _ => none }

/-- One step of the chaining loops of `getReadOverlaps`, on a hit given as the position on
the current read paired with the occurrence on the extension read. -/
def hitStep (d : Detector) (currentReadId : ReadId) (curLen : Nat) (activePaths : PathMap)
    (hit : Int × ReadPosition) : PathMap :=
  processExtHit d currentReadId curLen hit.1 activePaths hit.2

/-- The state of `activePaths` after the hits `hits` have been processed in order, starting
from the empty map. -/
def runHits (d : Detector) (currentReadId : ReadId) (curLen : Nat)
    (hits : List (Int × ReadPosition)) : PathMap :=
  hits.foldl (hitStep d currentReadId curLen) []

/-- The strand flip used in the samples: reads `2 n` and `2 n + 1` are the two strands of
one fragment. -/
def sampleRc (r : ReadId) : ReadId := if r % 2 = 0 then r + 1 else r - 1

/-- A small input: read `0` (length 6) carries the k-mers `10` and `11` at positions `0` and
`3`, read `2` (length 7) carries them at positions `1` and `4`; reads `1` and `3` are their
reverse strands and carry no indexed k-mer. -/
def sampleDetector : Detector :=
  { minimumOverlap := 2, maximumJump := 8, maximumOverhang := 5,
    seqIds := [0, 1, 2, 3], seqLen := fun r => if r < 2 then 6 else 7, rc := sampleRc,
    byRead := fun r =>
      if r = 0 then some [⟨10, 0⟩, ⟨11, 3⟩]
      else if r = 2 then some [⟨10, 1⟩, ⟨11, 4⟩]
      else if r = 1 ∨ r = 3 then some []
      else none,
    byKmer := fun k =>
      if k = 10 then some [⟨0, 0⟩, ⟨2, 1⟩] else if k = 11 then some [⟨0, 3⟩, ⟨2, 4⟩] else none }

/-- The overlap that `getReadOverlaps` finds for read `0` of `sampleDetector`. -/
def sampleOverlap : OverlapRange :=
  { curId := 0, curBegin := 0, curEnd := 3, leftShift := -1, rightShift := 0,
    extId := 2, extBegin := 1, extEnd := 4 }

/-- The state in which the single worker leaves `sampleDetector`. -/
def sampleRun : WorkerState :=
  { overlapMatrix := [(0, 2), (2, 0), (3, 1), (1, 3)],
    overlapIndex :=
      [(0, [sampleOverlap]),
       (2, [sampleOverlap.reverse]),
       (3, [sampleOverlap.reverse.complement sampleRc 7 6]),
       (1, [(sampleOverlap.reverse.complement sampleRc 7 6).reverse])],
    queried := [0, 1, 2, 3] }

/-- A read that overlaps its own reverse strand: read `0` and its reverse strand `1` (both of
length 6) carry the k-mers `10` and `11` at positions `0` and `3`, as the two strands of a
reverse-palindromic sequence do. -/
def hairpinDetector : Detector :=
  { minimumOverlap := 2, maximumJump := 8, maximumOverhang := 5,
    seqIds := [0, 1], seqLen := fun _ => 6, rc := sampleRc,
    byRead := fun r => if r = 0 ∨ r = 1 then some [⟨10, 0⟩, ⟨11, 3⟩] else none,
    byKmer := fun k =>
      if k = 10 then some [⟨0, 0⟩, ⟨1, 0⟩] else if k = 11 then some [⟨0, 3⟩, ⟨1, 3⟩] else none }

/-- The overlap that `getReadOverlaps` finds for read `0` of `hairpinDetector`. -/
def hairpinOverlap : OverlapRange :=
  { curId := 0, curBegin := 0, curEnd := 3, leftShift := 0, rightShift := 0,
    extId := 1, extBegin := 0, extEnd := 3 }

/-- The shared k-mer hits between the read with the k-mer list `kmers` and all reads, as
pairs (occurrence on the current read, occurrence of the same k-mer in the k-mer index). -/
def sharedHits (d : Detector) (kmers : List KmerPosition) :
    List (KmerPosition × ReadPosition) :=
  kmers.flatMap (fun curKmer =>
    ((d.byKmer curKmer.kmer).getD []).map (fun extKmer => (curKmer, extKmer)))

/-- Whether a shared hit is a hit with the extension read of `ovlp` that lies inside
`[curBegin, curEnd]` and `[extBegin, extEnd]`. -/
def insideOverlap (ovlp : OverlapRange) (hit : KmerPosition × ReadPosition) : Bool :=
  decide (ovlp.curBegin ≤ hit.1.position ∧ hit.1.position ≤ ovlp.curEnd) &&
  (decide (hit.2.readId = ovlp.extId) &&
    decide (ovlp.extBegin ≤ hit.2.position) && decide (hit.2.position ≤ ovlp.extEnd))

/-- The offsets `curKmer.position − extKmer.position` of the shared k-mer hits inside the
overlap, in the words of the specification of `addOverlapShifts`. -/
def hitOffsets (d : Detector) (ovlp : OverlapRange) (kmers : List KmerPosition) : List Int :=
  ((sharedHits d kmers).filter (insideOverlap ovlp)).map
    (fun hit => hit.1.position - hit.2.position)

/-- A fork: read `0` (length 6) carries the k-mers `10` and `11` at positions `0` and `3`,
read `2` (length 7) carries them at positions `0` and `4`, so that the second hit is a
`J_FAR` continuation of the first. -/
def forkDetector : Detector :=
  { minimumOverlap := 2, maximumJump := 8, maximumOverhang := 5,
    seqIds := [0, 1, 2, 3], seqLen := fun r => if r < 2 then 6 else 7, rc := sampleRc,
    byRead := fun r =>
      if r = 0 then some [⟨10, 0⟩, ⟨11, 3⟩]
      else if r = 2 then some [⟨10, 0⟩, ⟨11, 4⟩]
      else if r = 1 ∨ r = 3 then some []
      else none,
    byKmer := fun k =>
      if k = 10 then some [⟨0, 0⟩, ⟨2, 0⟩] else if k = 11 then some [⟨0, 3⟩, ⟨2, 4⟩] else none }

/-- The path of `forkDetector` that passes `overlapTest`, before the shifts are set. -/
def forkPath : OverlapRange :=
  { curId := 0, curBegin := 0, curEnd := 3, leftShift := 0, rightShift := 0,
    extId := 2, extBegin := 0, extEnd := 4 }

/-- The k-mer occurrences of a read whose indexed k-mers sit at the positions `first`,
`first + 1`, ..., `first + count − 1`; the k-mer at position `p` has the value `100 + p`. -/
def diagonalKmers (first count : Nat) : List KmerPosition :=
  (List.range count).map (fun i => ⟨100 + (first + i), ((first + i : Nat) : Int)⟩)

/-- Scenario S1: `minimumOverlap = 10`, `maximumJump = 8`, `maximumOverhang = 5`; reads `0`
and `2` are identical, of length 20, with eighteen pairwise distinct 3-mers at the positions
`0..17`, so that the shared hits are `(p, p)` for `p = 0..17`. -/
def scenarioS1 : Detector :=
  { minimumOverlap := 10, maximumJump := 8, maximumOverhang := 5,
    seqIds := [0, 2], seqLen := fun _ => 20, rc := sampleRc,
    byRead := fun r => if r = 0 ∨ r = 2 then some (diagonalKmers 0 18) else none,
    byKmer := fun k =>
      if 100 ≤ k ∧ k < 118 then some [⟨0, ((k - 100 : Nat) : Int)⟩, ⟨2, ((k - 100 : Nat) : Int)⟩]
      else none }

/-- Scenario S4: `minimumOverlap = 10`, `maximumJump = 8`, `maximumOverhang = 5`; reads `0`
and `2` have length 100 and share exactly the diagonal hits `(p, p)` for `p = 5..90`. -/
def scenarioS4 : Detector :=
  { minimumOverlap := 10, maximumJump := 8, maximumOverhang := 5,
    seqIds := [0, 2], seqLen := fun _ => 100, rc := sampleRc,
    byRead := fun r => if r = 0 ∨ r = 2 then some (diagonalKmers 5 86) else none,
    byKmer := fun k =>
      if 105 ≤ k ∧ k ≤ 190 then some [⟨0, ((k - 100 : Nat) : Int)⟩, ⟨2, ((k - 100 : Nat) : Int)⟩]
      else none }

/-- One step of the clean-up with the accesses checked: `none` when `i` is not an index of
the vector, where `extPaths[i]` (and, on an empty vector, `back()`) would be out of range. -/
def eraseAtChecked (extPaths : List OverlapRange) (i : Nat) : Option (List OverlapRange) :=
  if i < extPaths.length then some (eraseAt extPaths i) else none

/-- The clean-up steps for the indices `ids`, in this order, with the accesses checked. -/
def eraseAllChecked : List Nat → List OverlapRange → Option (List OverlapRange)
  | [], extPaths => some extPaths
  | i :: rest, extPaths =>
    match eraseAtChecked extPaths i with
    | none => none
    | some extPaths1 => eraseAllChecked rest extPaths1

/-- The clean-up loop with the accesses checked: the marks are visited from the largest to
the smallest. -/
def erasePassChecked (extPaths : List OverlapRange) (eraseMarks : List Nat) :
    Option (List OverlapRange) :=
  eraseAllChecked eraseMarks.reverse extPaths

/-- The elements of `extPaths` whose index is not in `marks`, in their order; the first
element of `extPaths` has the index `i`. -/
def unmarkedFrom (marks : List Nat) : List OverlapRange → Nat → List OverlapRange
  | [], _ => []
  | p :: rest, i =>
    if i ∈ marks then unmarkedFrom marks rest (i + 1) else p :: unmarkedFrom marks rest (i + 1)

/-- The elements of `extPaths` at the indices that are not in `marks`. -/
def unmarked (extPaths : List OverlapRange) (marks : List Nat) : List OverlapRange :=
  unmarkedFrom marks extPaths 0

/-- Whether `jumpTest` classifies the step from the end of the path `p` to the hit
`(curPos, extPos)` as `J_CLOSE`. -/
def isClose (d : Detector) (curPos extPos : Int) (p : OverlapRange) : Bool :=
  decide (jumpTest d p.curEnd curPos p.extEnd extPos = JumpRes.J_CLOSE)

/-- Whether `jumpTest` classifies the step from the end of the path `p` to the hit
`(curPos, extPos)` as `J_FAR`. -/
def isFar (d : Detector) (curPos extPos : Int) (p : OverlapRange) : Bool :=
  decide (jumpTest d p.curEnd curPos p.extEnd extPos = JumpRes.J_FAR)

/-- The indices of the paths that `isClose` holds of, ascending; the first path of the list
has the index `i`. -/
def closeIdxFrom (d : Detector) (curPos extPos : Int) : List OverlapRange → Nat → List Nat
  | [], _ => []
  | p :: rest, i =>
    if isClose d curPos extPos p then i :: closeIdxFrom d curPos extPos rest (i + 1)
    else closeIdxFrom d curPos extPos rest (i + 1)

/-- What the scan knows about one class `cls` of paths (the `J_CLOSE` or the `J_FAR` ones)
after the first `n` paths of `all`: while `flag` is unset no path of the class was seen and
`len` is `0`; once it is set, `id` is the index of a path of the class whose jump length
`curPos − curEnd` is `len`, no path of the class seen so far has a larger jump length, and
every one before `id` has a smaller one. -/
def BestSoFar (all : List OverlapRange) (curPos : Int) (cls : OverlapRange → Bool) (n : Nat)
    (flag : Bool) (id : Nat) (len : Int) : Prop :=
  (flag = false → len = 0 ∧ ∀ j x, j < n → all[j]? = some x → cls x = false) ∧
  (flag = true → ∃ p, all[id]? = some p ∧ cls p = true ∧ len = curPos - p.curEnd ∧
    (∀ j x, j < n → all[j]? = some x → cls x = true → curPos - x.curEnd ≤ len) ∧
    (∀ j x, j < id → all[j]? = some x → cls x = true → curPos - x.curEnd < len))
/-- A path of reads `0` and `2` that ends at `(1, 2)`. -/
def closePathA : OverlapRange :=
  { curId := 0, curBegin := 0, curEnd := 1, leftShift := 0, rightShift := 0,
    extId := 2, extBegin := 1, extEnd := 2 }

/-- A path of reads `0` and `2` that ends at `(2, 3)`. -/
def closePathB : OverlapRange :=
  { curId := 0, curBegin := 0, curEnd := 2, leftShift := 0, rightShift := 0,
    extId := 2, extBegin := 1, extEnd := 3 }

/-- The map `activePaths` of `getReadOverlaps` when its two nested loops have ended; the
empty map when the read is not in the index (the function then returns before the loops),
`none` when `kmerIndex.at` throws. -/
def activePathsOf (d : Detector) (currentReadId : ReadId) : Option PathMap :=
  match d.byRead currentReadId with
  | none => some []
  | some kmers => chainLoop d currentReadId (d.seqLen currentReadId) kmers []

/-! # Verification -/

/-! ## The predicates -/

theorem iabs_eq_abs (x : Int) : iabs x = |x| := by
  unfold iabs
  split
  · rw [abs_of_neg (by assumption)]
  · rw [abs_of_nonneg (by omega)]

/-- C1: `jumpTest` returns `J_END` exactly when `dC > maximumJump`, `J_CLOSE` exactly when
`dC ≤ maximumJump`, `0 < dC < maximumJump`, `0 < dE < maximumJump` and
`|dC − dE| < maximumJump / 8`, and `J_FAR` exactly when `0 < dC < maximumJump`,
`0 < dE < maximumJump`, `|dC − dE| < maximumJump / 2` and the `J_CLOSE` condition fails
(`dC = curNext − curPrev`, `dE = extNext − extPrev`, truncating divisions). -/
theorem jumpTest_classification (d : Detector) (curPrev curNext extPrev extNext : Int) :
    (jumpTest d curPrev curNext extPrev extNext = JumpRes.J_END ↔
      curNext - curPrev > d.maximumJump) ∧
    (jumpTest d curPrev curNext extPrev extNext = JumpRes.J_CLOSE ↔
      curNext - curPrev ≤ d.maximumJump ∧
      0 < curNext - curPrev ∧ curNext - curPrev < d.maximumJump ∧
      0 < extNext - extPrev ∧ extNext - extPrev < d.maximumJump ∧
      |(curNext - curPrev) - (extNext - extPrev)| < Int.tdiv d.maximumJump 8) ∧
    (jumpTest d curPrev curNext extPrev extNext = JumpRes.J_FAR ↔
      0 < curNext - curPrev ∧ curNext - curPrev < d.maximumJump ∧
      0 < extNext - extPrev ∧ extNext - extPrev < d.maximumJump ∧
      |(curNext - curPrev) - (extNext - extPrev)| < Int.tdiv d.maximumJump 2 ∧
      ¬ (curNext - curPrev ≤ d.maximumJump ∧
        0 < curNext - curPrev ∧ curNext - curPrev < d.maximumJump ∧
        0 < extNext - extPrev ∧ extNext - extPrev < d.maximumJump ∧
        |(curNext - curPrev) - (extNext - extPrev)| < Int.tdiv d.maximumJump 8)) := by
  simp only [← iabs_eq_abs]
  unfold jumpTest
  generalize Int.tdiv d.maximumJump 8 = q8
  generalize Int.tdiv d.maximumJump 2 = q2
  generalize iabs ((curNext - curPrev) - (extNext - extPrev)) = a
  split_ifs with h1 h2 h3 h4 <;>
    refine ⟨?_, ?_, ?_⟩ <;> simp only [reduceCtorEq, false_iff, true_iff] <;> omega

/-- C2 as stated fails: with `maximumJump = 8` the step `dC = 1`, `dE = 6` is classified
`J_INCONS` although `dC > 0`, `dE > 0` and `dE < maximumJump`. -/
theorem jumpTest_incons_counterexample :
    jumpTest scenarioConfig 0 1 0 6 = JumpRes.J_INCONS ∧
    ¬ ((1 : Int) - 0 ≤ 0 ∨ (6 : Int) - 0 ≤ 0 ∨ (6 : Int) - 0 ≥ scenarioConfig.maximumJump) := by
  decide

/-- C2, amended: whenever `jumpTest` returns `J_INCONS`, at least one of `dC ≤ 0`,
`dC = maximumJump`, `dE ≤ 0`, `dE ≥ maximumJump` or `|dC − dE| ≥ maximumJump / 2` holds. -/
theorem jumpTest_incons_only (d : Detector) (curPrev curNext extPrev extNext : Int)
    (h : jumpTest d curPrev curNext extPrev extNext = JumpRes.J_INCONS) :
    curNext - curPrev ≤ 0 ∨ curNext - curPrev = d.maximumJump ∨
    extNext - extPrev ≤ 0 ∨ extNext - extPrev ≥ d.maximumJump ∨
    |(curNext - curPrev) - (extNext - extPrev)| ≥ Int.tdiv d.maximumJump 2 := by
  revert h
  simp only [← iabs_eq_abs]
  unfold jumpTest
  generalize Int.tdiv d.maximumJump 8 = q8
  generalize Int.tdiv d.maximumJump 2 = q2
  generalize iabs ((curNext - curPrev) - (extNext - extPrev)) = a
  split_ifs with h1 h2 h3 h4 <;> intro h <;> first | (exact absurd h (by decide)) | omega

/-- Witness for C2, amended: the step `dC = 1`, `dE = 6` under `maximumJump = 8`. -/
theorem jumpTest_incons_only_witness :
    jumpTest scenarioConfig 0 1 0 6 = JumpRes.J_INCONS ∧
    ((1 : Int) - 0 ≤ 0 ∨ (1 : Int) - 0 = scenarioConfig.maximumJump ∨
      (6 : Int) - 0 ≤ 0 ∨ (6 : Int) - 0 ≥ scenarioConfig.maximumJump ∨
      |((1 : Int) - 0) - ((6 : Int) - 0)| ≥ Int.tdiv scenarioConfig.maximumJump 2) :=
  ⟨by decide, jumpTest_incons_only scenarioConfig 0 1 0 6 (by decide)⟩

/-- C3 as stated fails: with `maximumOverhang = 5` and `minimumOverlap = 10`, a start at
`(5, 5)` on two reads of length 100 is within the overhang and leaves 95 bases on both
reads, yet `goodStart` rejects it. -/
theorem goodStart_counterexample :
    ¬ (goodStart scenarioConfig 5 5 100 100 = true ↔
      (min (5 : Int) 5 ≤ scenarioConfig.maximumOverhang ∧
        (100 : Int) - 5 ≥ scenarioConfig.minimumOverlap ∧
        (100 : Int) - 5 ≥ scenarioConfig.minimumOverlap)) := by
  decide

/-- C3, amended: `goodStart` is true if and only if `min(curPos, extPos) < maximumOverhang`,
`curLen − curPos > minimumOverlap` and `extLen − extPos > minimumOverlap` (all three bounds
are strict). -/
theorem goodStart_iff (d : Detector) (curPos extPos curLen extLen : Int) :
    goodStart d curPos extPos curLen extLen = true ↔
      (min curPos extPos < d.maximumOverhang ∧
        curLen - curPos > d.minimumOverlap ∧
        extLen - extPos > d.minimumOverlap) := by
  unfold goodStart
  simp only [Bool.and_eq_true, decide_eq_true_eq]
  constructor
  · rintro ⟨⟨h1, h2⟩, h3⟩
    exact ⟨h1, by omega, by omega⟩
  · rintro ⟨h1, h2, h3⟩
    exact ⟨⟨h1, by omega⟩, by omega⟩

/-! ## Maps keyed by read id -/

theorem mapGet_mapSet (m : PathMap) (k k' : ReadId) (v : List OverlapRange) :
    mapGet (mapSet m k v) k' = if k = k' then v else mapGet m k' := by
  induction m with
  | nil =>
    simp only [mapSet, mapGet]
  | cons e m ih =>
    obtain ⟨a, b⟩ := e
    simp only [mapSet]
    by_cases hak : a = k
    · subst hak
      by_cases hak' : a = k' <;> simp [mapGet, hak']
    · simp only [hak, if_false, mapGet, ih]
      by_cases hak' : a = k'
      · subst hak'
        have : ¬ k = a := fun h => hak h.symm
        simp only [if_true, this, if_false]
      · simp only [hak', if_false]

theorem mapGet_mapTouch (m : PathMap) (k k' : ReadId) :
    mapGet (mapTouch m k) k' = mapGet m k' := by
  unfold mapTouch
  rw [mapGet_mapSet]
  split
  · subst_vars; rfl
  · rfl

theorem mapGet_mapPush (m : PathMap) (k k' : ReadId) (o : OverlapRange) :
    mapGet (mapPush m k o) k' = if k = k' then mapGet m k ++ [o] else mapGet m k' := by
  unfold mapPush
  rw [mapGet_mapSet]

theorem mapHas_mapSet (m : PathMap) (k k' : ReadId) (v : List OverlapRange) :
    mapHas (mapSet m k v) k' = (decide (k = k') || mapHas m k') := by
  induction m with
  | nil =>
    simp only [mapSet, mapHas]
    by_cases h : k = k' <;> simp [h]
  | cons e m ih =>
    obtain ⟨a, b⟩ := e
    simp only [mapSet]
    by_cases hak : a = k
    · subst hak
      simp only [if_true, mapHas]
      by_cases h : a = k' <;> simp [h]
    · simp only [hak, if_false, mapHas, ih]
      by_cases h : a = k' <;> simp [h]

theorem mem_mapSet {m : PathMap} {k : ReadId} {v : List OverlapRange}
    {e : ReadId × List OverlapRange} (he : e ∈ mapSet m k v) : e ∈ m ∨ e = (k, v) := by
  induction m with
  | nil =>
    simp only [mapSet, List.mem_singleton] at he
    exact Or.inr he
  | cons x m ih =>
    obtain ⟨a, b⟩ := x
    simp only [mapSet] at he
    by_cases hak : a = k
    · simp only [hak, if_true, List.mem_cons] at he
      rcases he with he | he
      · exact Or.inr he
      · exact Or.inl (List.mem_cons_of_mem _ he)
    · simp only [hak, if_false, List.mem_cons] at he
      rcases he with he | he
      · exact Or.inl (he ▸ List.mem_cons_self _ _)
      · rcases ih he with h | h
        · exact Or.inl (List.mem_cons_of_mem _ h)
        · exact Or.inr h

theorem mapGet_nil_or_mem (m : PathMap) (k : ReadId) :
    mapGet m k = [] ∨ (k, mapGet m k) ∈ m := by
  induction m with
  | nil => exact Or.inl rfl
  | cons x m ih =>
    obtain ⟨a, b⟩ := x
    simp only [mapGet]
    by_cases hak : a = k
    · subst hak
      simp only [if_true]
      exact Or.inr (List.mem_cons_self _ _)
    · simp only [hak, if_false]
      rcases ih with h | h
      · exact Or.inl h
      · exact Or.inr (List.mem_cons_of_mem _ h)

theorem mem_mapGet_of_mem {m : PathMap} {e : ReadId × List OverlapRange} (he : e ∈ m) :
    ∃ v, (e.1, v) ∈ m ∧ mapGet m e.1 = v := by
  rcases mapGet_nil_or_mem m e.1 with h | h
  · induction m with
    | nil => cases he
    | cons x m ih =>
      obtain ⟨a, b⟩ := x
      simp only [mapGet] at h
      by_cases hak : a = e.1
      · simp only [hak, if_true] at h
        exact ⟨b, by rw [← hak]; exact List.mem_cons_self _ _, by simp [mapGet, hak, h]⟩
      · simp only [hak, if_false] at h
        rcases List.mem_cons.mp he with he' | he'
        · exact absurd (by rw [he']) hak
        · obtain ⟨v, hv, hg⟩ := ih he' h
          exact ⟨v, List.mem_cons_of_mem _ hv, by simp [mapGet, hak, hg]⟩
  · exact ⟨_, h, rfl⟩

/-! ## The clean-up pass -/

theorem mem_eraseAt {v : List OverlapRange} {i : Nat} {o : OverlapRange}
    (ho : o ∈ eraseAt v i) : o ∈ v := by
  unfold eraseAt at ho
  cases hb : v.getLast? with
  | none =>
    rw [hb] at ho
    exact ho
  | some b =>
    rw [hb] at ho
    have hbv : b ∈ v := List.mem_of_getLast?_eq_some hb
    have h1 : o ∈ v.set i b := List.dropLast_subset _ ho
    rcases List.mem_or_eq_of_mem_set h1 with h | h
    · exact h
    · exact h ▸ hbv

theorem length_eraseAt (v : List OverlapRange) (i : Nat) :
    (eraseAt v i).length = v.length - 1 := by
  unfold eraseAt
  cases hb : v.getLast? with
  | none =>
    have : v = [] := List.getLast?_eq_none_iff.mp hb
    subst this
    rfl
  | some b =>
    simp only [List.length_dropLast, List.length_set]

theorem mem_foldl_eraseAt {marks : List Nat} {v : List OverlapRange} {o : OverlapRange}
    (ho : o ∈ marks.foldl eraseAt v) : o ∈ v := by
  induction marks generalizing v with
  | nil => exact ho
  | cons i marks ih => exact mem_eraseAt (ih ho)

theorem length_foldl_eraseAt (marks : List Nat) (v : List OverlapRange) :
    (marks.foldl eraseAt v).length = v.length - marks.length := by
  induction marks generalizing v with
  | nil => rfl
  | cons i marks ih =>
    simp only [List.foldl_cons, ih, length_eraseAt, List.length_cons]
    omega

theorem mem_erasePass {marks : List Nat} {v : List OverlapRange} {o : OverlapRange}
    (ho : o ∈ erasePass v marks) : o ∈ v :=
  mem_foldl_eraseAt ho

theorem length_erasePass (marks : List Nat) (v : List OverlapRange) :
    (erasePass v marks).length = v.length - marks.length := by
  unfold erasePass
  rw [length_foldl_eraseAt, List.length_reverse]

theorem setInsert_ne_nil (x : Nat) (l : List Nat) : setInsert x l ≠ [] := by
  cases l with
  | nil => simp [setInsert]
  | cons y ys =>
    simp only [setInsert]
    split_ifs <;> simp

/-! ## The updates of one hit -/

theorem length_setEnds (v : List OverlapRange) (i : Nat) (a b : Int) :
    (setEnds v i a b).length = v.length := by
  unfold setEnds
  cases v[i]? <;> simp

theorem length_pushCopy_le (v : List OverlapRange) (i : Nat) (a b : Int) :
    (pushCopy v i a b).length ≤ v.length + 1 := by
  unfold pushCopy
  cases v[i]? <;> simp

theorem length_updatePaths_le (d : Detector) (cur k : ReadId) (curLen extLen curPos extPos : Int)
    (s : ScanState) (v : List OverlapRange) :
    (updatePaths d cur k curLen extLen curPos extPos s v).length ≤ v.length + 1 := by
  unfold updatePaths
  cases hc : s.extendsClose <;> cases hf : s.extendsFar <;>
    cases hg : goodStart d curPos extPos curLen extLen <;>
    simp [length_setEnds] <;>
    first
      | exact length_pushCopy_le _ _ _ _
      | exact (length_pushCopy_le _ _ _ _).trans (by simp [length_setEnds])

/-- The path set never grows beyond the cap in one step. -/
theorem length_processHit_le (d : Detector) (cur k : ReadId)
    (curLen extLen curPos extPos : Int) (v : List OverlapRange) (hv : v.length ≤ MAX_PATHS) :
    (processHit d cur k curLen extLen curPos extPos v).length ≤ MAX_PATHS := by
  unfold processHit
  simp only []
  rw [length_erasePass]
  generalize hs : scanPaths d curPos extPos v 0 ScanState.init = s
  have hlen := length_updatePaths_le d cur k curLen extLen curPos extPos s v
  generalize updatePaths d cur k curLen extLen curPos extPos s v = paths at hlen
  unfold capMarks
  by_cases hcap : paths.length > MAX_PATHS
  · simp only [hcap, if_true]
    have hne := setInsert_ne_nil (shortestId paths) (marksAfterClose s)
    have : 0 < (setInsert (shortestId paths) (marksAfterClose s)).length :=
      List.length_pos.mpr hne
    omega
  · simp only [hcap, if_false]
    omega

theorem mem_setEnds {v : List OverlapRange} {i : Nat} {a b : Int} {o : OverlapRange}
    (ho : o ∈ setEnds v i a b) :
    o ∈ v ∨ ∃ p, v[i]? = some p ∧ o = { p with curEnd := a, extEnd := b } := by
  unfold setEnds at ho
  cases hp : v[i]? with
  | none =>
    rw [hp] at ho
    exact Or.inl ho
  | some p =>
    rw [hp] at ho
    rcases List.mem_or_eq_of_mem_set ho with h | h
    · exact Or.inl h
    · exact Or.inr ⟨p, rfl, h⟩

theorem getElem?_setEnds {v : List OverlapRange} {i j : Nat} {a b : Int} {q : OverlapRange}
    (hq : (setEnds v i a b)[j]? = some q) :
    ∃ p, v[j]? = some p ∧
      ({ q with curEnd := a, extEnd := b } : OverlapRange) =
        { p with curEnd := a, extEnd := b } := by
  unfold setEnds at hq
  cases hp : v[i]? with
  | none =>
    rw [hp] at hq
    exact ⟨q, hq, rfl⟩
  | some p =>
    rw [hp] at hq
    simp only [] at hq
    rw [List.getElem?_set] at hq
    by_cases hij : i = j
    · subst hij
      simp only [if_true] at hq
      split at hq
      · have := Option.some.inj hq
        subst this
        exact ⟨p, hp, rfl⟩
      · cases hq
    · simp only [hij, if_false] at hq
      exact ⟨q, hq, rfl⟩

theorem mem_pushCopy {w : List OverlapRange} {j : Nat} {a b : Int} {o : OverlapRange}
    (ho : o ∈ pushCopy w j a b) :
    o ∈ w ∨ ∃ q, w[j]? = some q ∧ o = { q with curEnd := a, extEnd := b } := by
  unfold pushCopy at ho
  cases hq : w[j]? with
  | none =>
    rw [hq] at ho
    exact Or.inl ho
  | some q =>
    rw [hq] at ho
    rcases List.mem_append.mp ho with h | h
    · exact Or.inl h
    · exact Or.inr ⟨q, rfl, List.mem_singleton.mp h⟩

/-- The elements of the path vector after the three updates: an old path, an old path with
its end moved to the hit (the best close or the best far one), or the new single-point path. -/
theorem mem_updatePaths {d : Detector} {cur k : ReadId} {curLen extLen curPos extPos : Int}
    {s : ScanState} {v : List OverlapRange} {o : OverlapRange}
    (ho : o ∈ updatePaths d cur k curLen extLen curPos extPos s v) :
    o ∈ v ∨
    (∃ p, ((s.extendsClose = true ∧ v[s.maxCloseId]? = some p) ∨
        (s.extendsFar = true ∧ v[s.maxFarId]? = some p)) ∧
      o = { p with curEnd := curPos, extEnd := extPos }) ∨
    (o = OverlapRange.init cur k curPos extPos ∧ s.extendsClose = false ∧
      s.extendsFar = false ∧ goodStart d curPos extPos curLen extLen = true) := by
  unfold updatePaths at ho
  simp only [] at ho
  -- the paths after the close update
  have h1 : ∀ x, x ∈ (if s.extendsClose = true then setEnds v s.maxCloseId curPos extPos
      else v) → x ∈ v ∨ ∃ p, (s.extendsClose = true ∧ v[s.maxCloseId]? = some p) ∧
        x = { p with curEnd := curPos, extEnd := extPos } := by
    intro x hx
    by_cases hc : s.extendsClose = true
    · simp only [hc, if_true] at hx
      rcases mem_setEnds hx with h | ⟨p, hp, hxp⟩
      · exact Or.inl h
      · exact Or.inr ⟨p, ⟨hc, hp⟩, hxp⟩
    · simp only [hc, if_false] at hx
      exact Or.inl hx
  -- the paths after the far update
  have h2 : ∀ x, x ∈ (if s.extendsFar = true then
      pushCopy (if s.extendsClose = true then setEnds v s.maxCloseId curPos extPos else v)
        s.maxFarId curPos extPos
      else (if s.extendsClose = true then setEnds v s.maxCloseId curPos extPos else v)) →
      x ∈ v ∨ ∃ p, ((s.extendsClose = true ∧ v[s.maxCloseId]? = some p) ∨
        (s.extendsFar = true ∧ v[s.maxFarId]? = some p)) ∧
        x = { p with curEnd := curPos, extEnd := extPos } := by
    intro x hx
    by_cases hf : s.extendsFar = true
    · simp only [hf, if_true] at hx
      rcases mem_pushCopy hx with h | ⟨q, hq, hxq⟩
      · rcases h1 x h with h | ⟨p, hp, hxp⟩
        · exact Or.inl h
        · exact Or.inr ⟨p, Or.inl hp, hxp⟩
      · by_cases hc : s.extendsClose = true
        · simp only [hc, if_true] at hq
          obtain ⟨p, hp, hpq⟩ := getElem?_setEnds hq
          exact Or.inr ⟨p, Or.inr ⟨hf, hp⟩, hxq.trans hpq⟩
        · simp only [hc, if_false] at hq
          exact Or.inr ⟨q, Or.inr ⟨hf, hq⟩, hxq⟩
    · simp only [hf, if_false] at hx
      rcases h1 x hx with h | ⟨p, hp, hxp⟩
      · exact Or.inl h
      · exact Or.inr ⟨p, Or.inl hp, hxp⟩
  split at ho
  · rename_i hg
    simp only [Bool.and_eq_true, Bool.not_eq_true'] at hg
    rcases List.mem_append.mp ho with h | h
    · rcases h2 o h with h | h
      · exact Or.inl h
      · exact Or.inr (Or.inl h)
    · exact Or.inr (Or.inr ⟨List.mem_singleton.mp h, hg.1.1, hg.1.2, hg.2⟩)
  · rcases h2 o ho with h | h
    · exact Or.inl h
    · exact Or.inr (Or.inl h)

/-! ## The scan over the paths -/

/-- What the scan locals record: when `extendsClose` (`extendsFar`) is set, `maxCloseId`
(`maxFarId`) is the index of a path that `jumpTest` classified `J_CLOSE` (`J_FAR`). -/
theorem scanPaths_spec (d : Detector) (curPos extPos : Int) (all : List OverlapRange) :
    ∀ (rest pre : List OverlapRange) (s : ScanState), all = pre ++ rest →
      ((s.extendsClose = true → ∃ p, all[s.maxCloseId]? = some p ∧
          jumpTest d p.curEnd curPos p.extEnd extPos = JumpRes.J_CLOSE) ∧
        (s.extendsFar = true → ∃ p, all[s.maxFarId]? = some p ∧
          jumpTest d p.curEnd curPos p.extEnd extPos = JumpRes.J_FAR)) →
      ((scanPaths d curPos extPos rest pre.length s).extendsClose = true →
          ∃ p, all[(scanPaths d curPos extPos rest pre.length s).maxCloseId]? = some p ∧
            jumpTest d p.curEnd curPos p.extEnd extPos = JumpRes.J_CLOSE) ∧
        ((scanPaths d curPos extPos rest pre.length s).extendsFar = true →
          ∃ p, all[(scanPaths d curPos extPos rest pre.length s).maxFarId]? = some p ∧
            jumpTest d p.curEnd curPos p.extEnd extPos = JumpRes.J_FAR) := by
  intro rest
  induction rest with
  | nil =>
    intro pre s _ hs
    exact hs
  | cons p rest ih =>
    intro pre s hall hs
    have hall' : all = (pre ++ [p]) ++ rest := by simp [hall]
    have hget : all[pre.length]? = some p := by
      rw [hall', List.getElem?_append_left (by simp)]
      exact List.getElem?_concat_length pre p
    have := ih (pre ++ [p]) (scanStep d curPos extPos s pre.length p) hall' (by
      unfold scanStep
      simp only []
      cases hj : jumpTest d p.curEnd curPos p.extEnd extPos with
      | J_END => exact hs
      | J_INCONS => exact hs
      | J_CLOSE =>
        simp only []
        split_ifs
        · exact ⟨fun _ => ⟨p, hget, hj⟩, hs.2⟩
        · exact hs
      | J_FAR =>
        simp only []
        split_ifs
        · exact ⟨hs.1, fun _ => ⟨p, hget, hj⟩⟩
        · exact hs)
    simpa [scanPaths] using this

theorem scanPaths_init_spec (d : Detector) (curPos extPos : Int) (v : List OverlapRange) :
    ((scanPaths d curPos extPos v 0 ScanState.init).extendsClose = true →
        ∃ p, v[(scanPaths d curPos extPos v 0 ScanState.init).maxCloseId]? = some p ∧
          jumpTest d p.curEnd curPos p.extEnd extPos = JumpRes.J_CLOSE) ∧
      ((scanPaths d curPos extPos v 0 ScanState.init).extendsFar = true →
        ∃ p, v[(scanPaths d curPos extPos v 0 ScanState.init).maxFarId]? = some p ∧
          jumpTest d p.curEnd curPos p.extEnd extPos = JumpRes.J_FAR) := by
  have := scanPaths_spec d curPos extPos v v [] ScanState.init rfl
    ⟨fun h => by simp [ScanState.init] at h, fun h => by simp [ScanState.init] at h⟩
  simpa using this

/-- The elements of the path vector after one hit: an old path, an old path that `jumpTest`
classified `J_CLOSE` or `J_FAR` with its end moved to the hit, or the new single-point
path. -/
theorem mem_processHit {d : Detector} {cur k : ReadId} {curLen extLen curPos extPos : Int}
    {v : List OverlapRange} {o : OverlapRange}
    (ho : o ∈ processHit d cur k curLen extLen curPos extPos v) :
    o ∈ v ∨
    (∃ p ∈ v, (jumpTest d p.curEnd curPos p.extEnd extPos = JumpRes.J_CLOSE ∨
        jumpTest d p.curEnd curPos p.extEnd extPos = JumpRes.J_FAR) ∧
      o = { p with curEnd := curPos, extEnd := extPos }) ∨
    (o = OverlapRange.init cur k curPos extPos ∧
      goodStart d curPos extPos curLen extLen = true) := by
  unfold processHit at ho
  simp only [] at ho
  have hscan := scanPaths_init_spec d curPos extPos v
  rcases mem_updatePaths (mem_erasePass ho) with h | ⟨p, hp, hop⟩ | ⟨h, _, _, hg⟩
  · exact Or.inl h
  · right; left
    rcases hp with ⟨hc, hget⟩ | ⟨hf, hget⟩
    · obtain ⟨p', hget', hj⟩ := hscan.1 hc
      rw [hget] at hget'
      cases hget'
      exact ⟨p, List.getElem?_mem hget, Or.inl hj, hop⟩
    · obtain ⟨p', hget', hj⟩ := hscan.2 hf
      rw [hget] at hget'
      cases hget'
      exact ⟨p, List.getElem?_mem hget, Or.inr hj, hop⟩
  · exact Or.inr (Or.inr ⟨h, hg⟩)

/-! ## Invariants of the chaining loops -/

/-- A property of the path vectors that holds of the empty vector and is kept by the
processing of one hit holds of every entry of `activePaths` after one inner iteration. -/
theorem processExtHit_invariant (Q : ReadId → List OverlapRange → Prop) (d : Detector)
    (cur : ReadId) (curLen : Nat)
    (hnil : ∀ k, k ≠ cur → Q k [])
    (hstep : ∀ k curPos extPos v, k ≠ cur → Q k v →
      Q k (processHit d cur k curLen (d.seqLen k) curPos extPos v))
    (curPos : Int) (m : PathMap) (hm : ∀ e ∈ m, Q e.1 e.2) (hit : ReadPosition) :
    ∀ e ∈ processExtHit d cur curLen curPos m hit, Q e.1 e.2 := by
  intro e he
  unfold processExtHit at he
  by_cases hself : hit.readId = cur
  · simp only [hself, if_true] at he
    exact hm e he
  · simp only [hself, if_false] at he
    have hget : Q hit.readId (mapGet m hit.readId) := by
      rcases mapGet_nil_or_mem m hit.readId with h | h
      · rw [h]
        exact hnil _ hself
      · exact hm _ h
    split at he
    · rcases mem_mapSet he with h | h
      · exact hm e h
      · rw [h]
        exact hget
    · rcases mem_mapSet he with h | h
      · exact hm e h
      · rw [h]
        exact hstep _ _ _ _ hself hget

theorem foldl_hitStep_invariant (Q : ReadId → List OverlapRange → Prop) (d : Detector)
    (cur : ReadId) (curLen : Nat)
    (hnil : ∀ k, k ≠ cur → Q k [])
    (hstep : ∀ k curPos extPos v, k ≠ cur → Q k v →
      Q k (processHit d cur k curLen (d.seqLen k) curPos extPos v))
    (hits : List (Int × ReadPosition)) (m : PathMap) (hm : ∀ e ∈ m, Q e.1 e.2) :
    ∀ e ∈ hits.foldl (hitStep d cur curLen) m, Q e.1 e.2 := by
  induction hits generalizing m with
  | nil => exact hm
  | cons h hits ih =>
    exact ih _ (processExtHit_invariant Q d cur curLen hnil hstep h.1 m hm h.2)

theorem runHits_invariant (Q : ReadId → List OverlapRange → Prop) (d : Detector)
    (cur : ReadId) (curLen : Nat)
    (hnil : ∀ k, k ≠ cur → Q k [])
    (hstep : ∀ k curPos extPos v, k ≠ cur → Q k v →
      Q k (processHit d cur k curLen (d.seqLen k) curPos extPos v))
    (hits : List (Int × ReadPosition)) :
    ∀ e ∈ runHits d cur curLen hits, Q e.1 e.2 :=
  foldl_hitStep_invariant Q d cur curLen hnil hstep hits [] (fun _ h => nomatch h)

theorem foldl_processExtHit_eq (d : Detector) (cur : ReadId) (curLen : Nat) (curPos : Int)
    (occs : List ReadPosition) (m : PathMap) :
    occs.foldl (processExtHit d cur curLen curPos) m =
      (occs.map (fun occ => (curPos, occ))).foldl (hitStep d cur curLen) m := by
  induction occs generalizing m with
  | nil => rfl
  | cons occ occs ih => simp only [List.foldl_cons, List.map_cons, ih, hitStep]

/-- The nested loops of `getReadOverlaps` process a sequence of hits one after the other:
whatever `chainLoop` returns is the result of folding `hitStep` over some hit list. -/
theorem chainLoop_eq_foldl (d : Detector) (cur : ReadId) (curLen : Nat)
    (kmers : List KmerPosition) (m m' : PathMap)
    (h : chainLoop d cur curLen kmers m = some m') :
    ∃ hits : List (Int × ReadPosition), m' = hits.foldl (hitStep d cur curLen) m := by
  induction kmers generalizing m with
  | nil =>
    simp only [chainLoop, Option.some.injEq] at h
    exact ⟨[], h.symm⟩
  | cons kp kmers ih =>
    simp only [chainLoop] at h
    cases hk : d.byKmer kp.kmer with
    | none =>
      rw [hk] at h
      cases h
    | some occs =>
      rw [hk] at h
      simp only [] at h
      obtain ⟨hits, hh⟩ := ih _ h
      refine ⟨occs.map (fun occ => (kp.position, occ)) ++ hits, ?_⟩
      rw [List.foldl_append, ← foldl_processExtHit_eq]
      exact hh

theorem chainLoop_eq_runHits (d : Detector) (cur : ReadId) (curLen : Nat)
    (kmers : List KmerPosition) (m' : PathMap)
    (h : chainLoop d cur curLen kmers [] = some m') :
    ∃ hits : List (Int × ReadPosition), m' = runHits d cur curLen hits :=
  chainLoop_eq_foldl d cur curLen kmers [] m' h

/-! ## The reduction of the path sets -/

theorem overlapTest_iff (d : Detector) (o : OverlapRange) (curLen extLen : Int) :
    overlapTest d o curLen extLen = true ↔
      (o.curRange ≥ d.minimumOverlap ∧ o.extRange ≥ d.minimumOverlap ∧
        |o.curRange - o.extRange| ≤ d.maximumJump ∧
        min o.curBegin o.extBegin ≤ d.maximumOverhang ∧
        min (curLen - o.curEnd) (extLen - o.extEnd) ≤ d.maximumOverhang) := by
  unfold overlapTest
  rw [← iabs_eq_abs]
  generalize iabs (o.curRange - o.extRange) = a
  generalize min o.curBegin o.extBegin = b
  generalize min (curLen - o.curEnd) (extLen - o.extEnd) = c
  split_ifs with h1 h2 h3 h4 <;> simp only [reduceCtorEq, false_iff, true_iff] <;> omega

/-- The test of `overlapTest` reads the four coordinates only. -/
theorem overlapTest_congr (d : Detector) (o x : OverlapRange) (curLen extLen : Int)
    (h1 : o.curBegin = x.curBegin) (h2 : o.curEnd = x.curEnd)
    (h3 : o.extBegin = x.extBegin) (h4 : o.extEnd = x.extEnd) :
    overlapTest d o curLen extLen = overlapTest d x curLen extLen := by
  unfold overlapTest OverlapRange.curRange OverlapRange.extRange
  rw [h1, h2, h3, h4]

theorem foldl_reduceStep_spec (d : Detector) (curLen extLen : Int)
    (hmin : 1 ≤ d.minimumOverlap) (all : List OverlapRange) :
    ∀ (l : List OverlapRange) (s : OverlapRange × Bool), (∀ o ∈ l, o ∈ all) →
      ((s.2 = false → s.1.curRange = 0) ∧
        (s.2 = true → s.1 ∈ all ∧ overlapTest d s.1 curLen extLen = true)) →
      ((l.foldl (reduceStep d curLen extLen) s).2 = true →
        (l.foldl (reduceStep d curLen extLen) s).1 ∈ all ∧
        overlapTest d (l.foldl (reduceStep d curLen extLen) s).1 curLen extLen = true) := by
  intro l
  induction l with
  | nil =>
    intro s _ hs
    exact hs.2
  | cons o l ih =>
    intro s hl hs
    simp only [List.foldl_cons]
    apply ih _ (fun x hx => hl x (List.mem_cons_of_mem _ hx))
    unfold reduceStep
    by_cases ht : overlapTest d o curLen extLen = true
    · rw [if_pos ht]
      refine ⟨fun h => Bool.noConfusion h, fun _ => ?_⟩
      have hrange := ((overlapTest_iff d o curLen extLen).mp ht).1
      dsimp only
      by_cases hlt : s.1.curRange < o.curRange
      · rw [if_pos hlt]
        exact ⟨hl o (List.mem_cons_self _ _), ht⟩
      · rw [if_neg hlt]
        cases hb : s.2 with
        | false =>
          have := hs.1 hb
          omega
        | true => exact hs.2 hb
    · rw [if_neg ht]
      exact hs

/-- With `minimumOverlap ≥ 1`, when `passedTest` is set `maxOverlap` is one of the paths and
passes `overlapTest`. -/
theorem reducePaths_passed (d : Detector) (curLen extLen : Int) (hmin : 1 ≤ d.minimumOverlap)
    (paths : List OverlapRange) (hp : (reducePaths d curLen extLen paths).2 = true) :
    (reducePaths d curLen extLen paths).1 ∈ paths ∧
      overlapTest d (reducePaths d curLen extLen paths).1 curLen extLen = true :=
  foldl_reduceStep_spec d curLen extLen hmin paths paths _ (fun _ h => h)
    ⟨fun _ => rfl, fun h => by cases h⟩ hp

theorem foldl_reduceStep_mem (d : Detector) (curLen extLen : Int) (all : List OverlapRange) :
    ∀ (l : List OverlapRange) (s : OverlapRange × Bool), (∀ o ∈ l, o ∈ all) →
      (s.1 ∈ all ∨ s.1 = OverlapRange.init 0 0 0 0) →
      ((l.foldl (reduceStep d curLen extLen) s).1 ∈ all ∨
        (l.foldl (reduceStep d curLen extLen) s).1 = OverlapRange.init 0 0 0 0) := by
  intro l
  induction l with
  | nil =>
    intro s _ hs
    exact hs
  | cons o l ih =>
    intro s hl hs
    simp only [List.foldl_cons]
    apply ih _ (fun x hx => hl x (List.mem_cons_of_mem _ hx))
    unfold reduceStep
    split_ifs
    · exact Or.inl (hl o (List.mem_cons_self _ _))
    · exact hs
    · exact hs

/-- In every configuration `maxOverlap` is one of the paths or still the initial
`OverlapRange(0, 0, 0, 0)`. -/
theorem reducePaths_mem (d : Detector) (curLen extLen : Int) (paths : List OverlapRange) :
    (reducePaths d curLen extLen paths).1 ∈ paths ∨
      (reducePaths d curLen extLen paths).1 = OverlapRange.init 0 0 0 0 :=
  foldl_reduceStep_mem d curLen extLen paths paths _ (fun _ h => h) (Or.inr rfl)

/-- `addOverlapShifts` writes the two shifts and nothing else. -/
theorem addOverlapShifts_fields {d : Detector} {x o : OverlapRange}
    (h : addOverlapShifts d x = some o) :
    o.curId = x.curId ∧ o.extId = x.extId ∧ o.curBegin = x.curBegin ∧ o.curEnd = x.curEnd ∧
      o.extBegin = x.extBegin ∧ o.extEnd = x.extEnd := by
  unfold addOverlapShifts at h
  cases hr : d.byRead x.curId with
  | none => rw [hr] at h; cases h
  | some kmers =>
    rw [hr] at h
    simp only [] at h
    cases hc : collectShifts d x kmers with
    | none => rw [hc] at h; cases h
    | some shifts =>
      rw [hc] at h
      simp only [] at h
      cases hm : median shifts with
      | none => rw [hm] at h; cases h
      | some m =>
        rw [hm] at h
        simp only [Option.some.injEq] at h
        subst h
        exact ⟨rfl, rfl, rfl, rfl, rfl, rfl⟩

/-- Every overlap of `detectedOverlaps` is the `maxOverlap` of an entry of `activePaths`
whose `passedTest` is set, with its shifts filled in. -/
theorem mem_reduceAll {d : Detector} {curLen : Nat} {m : PathMap} {res : List OverlapRange}
    (h : reduceAll d curLen m = some res) {o : OverlapRange} (ho : o ∈ res) :
    ∃ e ∈ m, (reducePaths d curLen (d.seqLen e.1) e.2).2 = true ∧
      addOverlapShifts d (reducePaths d curLen (d.seqLen e.1) e.2).1 = some o := by
  induction m generalizing res with
  | nil =>
    simp only [reduceAll, Option.some.injEq] at h
    subst h
    cases ho
  | cons ap rest ih =>
    simp only [reduceAll] at h
    by_cases hp : (reducePaths d curLen (d.seqLen ap.1) ap.2).2 = true
    · simp only [hp, if_true] at h
      cases ha : addOverlapShifts d (reducePaths d curLen (d.seqLen ap.1) ap.2).1 with
      | none => rw [ha] at h; cases h
      | some o' =>
        rw [ha] at h
        simp only [] at h
        cases hr : reduceAll d curLen rest with
        | none => rw [hr] at h; cases h
        | some os =>
          rw [hr] at h
          simp only [Option.some.injEq] at h
          subst h
          rcases List.mem_cons.mp ho with h1 | h1
          · exact ⟨ap, List.mem_cons_self _ _, hp, by rw [ha, h1]⟩
          · obtain ⟨e, he, h2⟩ := ih hr h1
            exact ⟨e, List.mem_cons_of_mem _ he, h2⟩
    · simp only [hp] at h
      obtain ⟨e, he, h2⟩ := ih h ho
      exact ⟨e, List.mem_cons_of_mem _ he, h2⟩

/-- Every overlap returned by `getReadOverlaps` comes from an entry of the `activePaths`
reached by processing some sequence of hits. -/
theorem mem_getReadOverlaps {d : Detector} {q : ReadId} {res : List OverlapRange}
    (h : getReadOverlaps d q = some res) {o : OverlapRange} (ho : o ∈ res) :
    ∃ hits : List (Int × ReadPosition), ∃ e ∈ runHits d q (d.seqLen q) hits,
      (reducePaths d (d.seqLen q) (d.seqLen e.1) e.2).2 = true ∧
      addOverlapShifts d (reducePaths d (d.seqLen q) (d.seqLen e.1) e.2).1 = some o := by
  unfold getReadOverlaps at h
  cases hr : d.byRead q with
  | none =>
    rw [hr] at h
    simp only [Option.some.injEq] at h
    subst h
    cases ho
  | some kmers =>
    rw [hr] at h
    simp only [] at h
    cases hc : chainLoop d q (d.seqLen q) kmers [] with
    | none => rw [hc] at h; cases h
    | some m =>
      rw [hc] at h
      simp only [] at h
      obtain ⟨hits, hm⟩ := chainLoop_eq_runHits d q (d.seqLen q) kmers m hc
      obtain ⟨e, he, h2⟩ := mem_reduceAll h ho
      exact ⟨hits, e, hm ▸ he, h2⟩

/-! ## Properties of the paths -/

/-- A `J_CLOSE` or `J_FAR` result requires a forward step on both reads. -/
theorem jumpTest_extends_pos (d : Detector) (curPrev curNext extPrev extNext : Int)
    (h : jumpTest d curPrev curNext extPrev extNext = JumpRes.J_CLOSE ∨
      jumpTest d curPrev curNext extPrev extNext = JumpRes.J_FAR) :
    0 < curNext - curPrev ∧ 0 < extNext - extPrev := by
  unfold jumpTest at h
  split_ifs at h with h1 h2 h3 h4
  · rcases h with h | h <;> cases h
  · exact ⟨h2.1, h2.2.2.1⟩
  · exact ⟨h2.1, h2.2.2.1⟩
  · rcases h with h | h <;> cases h
  · rcases h with h | h <;> cases h

/-- A property of single paths that holds of every new single-point path and is kept when
the end of a path is moved after a `J_CLOSE` or `J_FAR` result holds of all active paths
after any sequence of hits; the keys of `activePaths` differ from the current read. -/
theorem runHits_paths (P : ReadId → OverlapRange → Prop) (d : Detector) (cur : ReadId)
    (curLen : Nat)
    (hinit : ∀ k curPos extPos, k ≠ cur → P k (OverlapRange.init cur k curPos extPos))
    (hext : ∀ k p curPos extPos, P k p →
      (jumpTest d p.curEnd curPos p.extEnd extPos = JumpRes.J_CLOSE ∨
        jumpTest d p.curEnd curPos p.extEnd extPos = JumpRes.J_FAR) →
      P k { p with curEnd := curPos, extEnd := extPos })
    (hits : List (Int × ReadPosition)) :
    ∀ e ∈ runHits d cur curLen hits, e.1 ≠ cur ∧ ∀ o ∈ e.2, P e.1 o := by
  apply runHits_invariant (fun k v => k ≠ cur ∧ ∀ o ∈ v, P k o)
  · intro k hk
    exact ⟨hk, fun _ h => nomatch h⟩
  · intro k curPos extPos v hk hv
    refine ⟨hk, fun o ho => ?_⟩
    rcases mem_processHit ho with h | ⟨p, hp, hj, hop⟩ | ⟨h, _⟩
    · exact hv.2 o h
    · rw [hop]
      exact hext k p curPos extPos (hv.2 p hp) hj
    · rw [h]
      exact hinit k curPos extPos hk

/-- The ids of the active paths: `curId` is the current read and `extId` is the key. -/
theorem runHits_ids (d : Detector) (cur : ReadId) (curLen : Nat)
    (hits : List (Int × ReadPosition)) :
    ∀ e ∈ runHits d cur curLen hits, e.1 ≠ cur ∧ ∀ o ∈ e.2, o.curId = cur ∧ o.extId = e.1 :=
  runHits_paths (fun k o => o.curId = cur ∧ o.extId = k) d cur curLen
    (fun _ _ _ _ => ⟨rfl, rfl⟩) (fun _ _ _ _ h _ => h) hits

theorem runHits_ordered (d : Detector) (cur : ReadId) (curLen : Nat)
    (hits : List (Int × ReadPosition)) :
    ∀ e ∈ runHits d cur curLen hits,
      e.1 ≠ cur ∧ ∀ o ∈ e.2, o.curBegin ≤ o.curEnd ∧ o.extBegin ≤ o.extEnd := by
  apply runHits_paths (fun _ o => o.curBegin ≤ o.curEnd ∧ o.extBegin ≤ o.extEnd) d cur curLen
  · intro k curPos extPos _
    exact ⟨le_refl _, le_refl _⟩
  · intro k p curPos extPos hp hj
    obtain ⟨h1, h2⟩ := hp
    obtain ⟨h3, h4⟩ := jumpTest_extends_pos d p.curEnd curPos p.extEnd extPos hj
    show p.curBegin ≤ curPos ∧ p.extBegin ≤ extPos
    constructor <;> omega

/-! ## The overlaps returned for one read -/

theorem toInt32_of_lt (n : Nat) (h : n < 2 ^ 31) : toInt32 n = n := by
  unfold toInt32
  omega

/-- C4: with `minimumOverlap ≥ 1` and read lengths below `2 ^ 31` (so that the conversion of
`curLen` and `extLen` to the `int32_t` parameters of `goodStart` and `overlapTest` keeps
their values), every overlap returned by `getReadOverlaps(q)` passes `overlapTest` with the
actual lengths of `q` and of its extension read: both ranges are at least `minimumOverlap`,
they differ by at most `maximumJump`, and the overhangs at the begin and at the end are at
most `maximumOverhang`. -/
theorem getReadOverlaps_overlapTest (d : Detector) (q : ReadId) (res : List OverlapRange)
    (o : OverlapRange) (hmin : 1 ≤ d.minimumOverlap) (hlen : ∀ r, d.seqLen r < 2 ^ 31)
    (hres : getReadOverlaps d q = some res) (ho : o ∈ res) :
    toInt32 (d.seqLen q) = d.seqLen q ∧ toInt32 (d.seqLen o.extId) = d.seqLen o.extId ∧
    overlapTest d o (toInt32 (d.seqLen q)) (toInt32 (d.seqLen o.extId)) = true ∧
    overlapTest d o (d.seqLen q) (d.seqLen o.extId) = true ∧
    o.curRange ≥ d.minimumOverlap ∧ o.extRange ≥ d.minimumOverlap ∧
    |o.curRange - o.extRange| ≤ d.maximumJump ∧
    min o.curBegin o.extBegin ≤ d.maximumOverhang ∧
    min ((d.seqLen q : Int) - o.curEnd) ((d.seqLen o.extId : Int) - o.extEnd) ≤
      d.maximumOverhang := by
  obtain ⟨hits, e, he, hpass, hadd⟩ := mem_getReadOverlaps hres ho
  obtain ⟨hx, htest⟩ := reducePaths_passed d (d.seqLen q) (d.seqLen e.1) hmin e.2 hpass
  obtain ⟨_, hext, hcb, hce, heb, hee⟩ := addOverlapShifts_fields hadd
  have hid := ((runHits_ids d q (d.seqLen q) hits e he).2 _ hx).2
  have hkey : o.extId = e.1 := hext.trans hid
  have : overlapTest d o (d.seqLen q) (d.seqLen o.extId) = true := by
    rw [hkey, overlapTest_congr d o _ _ _ hcb hce heb hee]
    exact htest
  have hq := toInt32_of_lt (d.seqLen q) (hlen q)
  have hE := toInt32_of_lt (d.seqLen o.extId) (hlen o.extId)
  refine ⟨hq, hE, ?_, this, (overlapTest_iff d o _ _).mp this⟩
  rw [hq, hE]
  exact this

/-- Witness for C4: the overlap found for read `0` of `sampleDetector`, whose reads have the
lengths 6 and 7. -/
theorem getReadOverlaps_overlapTest_witness :
    1 ≤ sampleDetector.minimumOverlap ∧
    (∀ r, sampleDetector.seqLen r < 2 ^ 31) ∧
    getReadOverlaps sampleDetector 0 = some [sampleOverlap] ∧
    sampleOverlap ∈ [sampleOverlap] ∧
    (toInt32 (sampleDetector.seqLen 0) = sampleDetector.seqLen 0 ∧
      toInt32 (sampleDetector.seqLen sampleOverlap.extId) =
        sampleDetector.seqLen sampleOverlap.extId ∧
      overlapTest sampleDetector sampleOverlap (toInt32 (sampleDetector.seqLen 0))
        (toInt32 (sampleDetector.seqLen sampleOverlap.extId)) = true ∧
      overlapTest sampleDetector sampleOverlap (sampleDetector.seqLen 0)
        (sampleDetector.seqLen sampleOverlap.extId) = true ∧
      sampleOverlap.curRange ≥ sampleDetector.minimumOverlap ∧
      sampleOverlap.extRange ≥ sampleDetector.minimumOverlap ∧
      |sampleOverlap.curRange - sampleOverlap.extRange| ≤ sampleDetector.maximumJump ∧
      min sampleOverlap.curBegin sampleOverlap.extBegin ≤ sampleDetector.maximumOverhang ∧
      min ((sampleDetector.seqLen 0 : Int) - sampleOverlap.curEnd)
          ((sampleDetector.seqLen sampleOverlap.extId : Int) - sampleOverlap.extEnd) ≤
        sampleDetector.maximumOverhang) :=
  have hlen : ∀ r, sampleDetector.seqLen r < 2 ^ 31 := by
    intro r
    show (if r < 2 then 6 else 7) < 2 ^ 31
    split <;> norm_num
  ⟨by decide, hlen, by decide, List.mem_singleton.mpr rfl,
    getReadOverlaps_overlapTest sampleDetector 0 [sampleOverlap] sampleOverlap (by decide)
      hlen (by decide) (List.mem_singleton.mpr rfl)⟩

/-- C5: chain monotonicity.  After any sequence of hits every active path has
`curBegin ≤ curEnd` and `extBegin ≤ extEnd`, and so has every overlap returned by
`getReadOverlaps`. -/
theorem chain_monotone (d : Detector) (q : ReadId) :
    (∀ (curLen : Nat) (hits : List (Int × ReadPosition)) (k : ReadId),
      ∀ o ∈ mapGet (runHits d q curLen hits) k,
        o.curBegin ≤ o.curEnd ∧ o.extBegin ≤ o.extEnd) ∧
    (∀ res, getReadOverlaps d q = some res →
      ∀ o ∈ res, o.curBegin ≤ o.curEnd ∧ o.extBegin ≤ o.extEnd) := by
  constructor
  · intro curLen hits k o ho
    rcases mapGet_nil_or_mem (runHits d q curLen hits) k with h | h
    · rw [h] at ho
      cases ho
    · exact (runHits_ordered d q curLen hits _ h).2 o ho
  · intro res hres o ho
    obtain ⟨hits, e, he, _, hadd⟩ := mem_getReadOverlaps hres ho
    obtain ⟨_, _, hcb, hce, heb, hee⟩ := addOverlapShifts_fields hadd
    rw [hcb, hce, heb, hee]
    rcases reducePaths_mem d (d.seqLen q) (d.seqLen e.1) e.2 with h | h
    · exact (runHits_ordered d q (d.seqLen q) hits e he).2 _ h
    · rw [h]
      exact ⟨le_refl _, le_refl _⟩

/-- Witness for C5: the overlap found for read `0` of `sampleDetector`. -/
theorem chain_monotone_witness :
    getReadOverlaps sampleDetector 0 = some [sampleOverlap] ∧
    sampleOverlap.curBegin ≤ sampleOverlap.curEnd ∧
    sampleOverlap.extBegin ≤ sampleOverlap.extEnd :=
  ⟨by decide, (chain_monotone sampleDetector 0).2 [sampleOverlap] (by decide) sampleOverlap
    (List.mem_singleton.mpr rfl)⟩

/-- C6: the path cap.  After any sequence of hits, each of them processed to the end of the
clean-up, the path set of every extension read has at most `MAX_PATHS = 100` entries; so it
has when the loops of `getReadOverlaps` end. -/
theorem path_cap (d : Detector) (q : ReadId) (curLen : Nat) :
    MAX_PATHS = 100 ∧
    (∀ (hits : List (Int × ReadPosition)) (k : ReadId),
      (mapGet (runHits d q curLen hits) k).length ≤ MAX_PATHS) ∧
    (∀ (kmers : List KmerPosition) (activePaths : PathMap),
      chainLoop d q curLen kmers [] = some activePaths →
      ∀ k, (mapGet activePaths k).length ≤ MAX_PATHS) := by
  have key : ∀ (hits : List (Int × ReadPosition)) (k : ReadId),
      (mapGet (runHits d q curLen hits) k).length ≤ MAX_PATHS := by
    intro hits k
    rcases mapGet_nil_or_mem (runHits d q curLen hits) k with h | h
    · rw [h]
      exact Nat.zero_le _
    · exact runHits_invariant (fun _ v => v.length ≤ MAX_PATHS) d q curLen
        (fun _ _ => Nat.zero_le _)
        (fun k curPos extPos v _ hv => length_processHit_le d q k curLen _ curPos extPos v hv)
        hits _ h
  refine ⟨rfl, key, ?_⟩
  intro kmers activePaths hc k
  obtain ⟨hits, hm⟩ := chainLoop_eq_runHits d q curLen kmers activePaths hc
  rw [hm]
  exact key hits k

/-- Witness for C6: the loops of `getReadOverlaps` for read `0` of `sampleDetector` end with
one path for read `2`. -/
theorem path_cap_witness :
    chainLoop sampleDetector 0 6 [⟨10, 0⟩, ⟨11, 3⟩] [] =
      some [(2, [{ sampleOverlap with leftShift := 0, rightShift := 0 }])] ∧
    (mapGet [(2, [{ sampleOverlap with leftShift := 0, rightShift := 0 }])] 2).length ≤
      MAX_PATHS :=
  ⟨by decide, (path_cap sampleDetector 0 6).2.2 [⟨10, 0⟩, ⟨11, 3⟩] _ (by decide) 2⟩

/-- C7: with `minimumOverlap ≥ 1`, every overlap returned by `getReadOverlaps(q)` has
`curId = q` and `extId ≠ q`, hence `curId ≠ extId`. -/
theorem no_self_overlaps (d : Detector) (q : ReadId) (res : List OverlapRange)
    (o : OverlapRange) (hmin : 1 ≤ d.minimumOverlap)
    (hres : getReadOverlaps d q = some res) (ho : o ∈ res) :
    o.curId = q ∧ o.extId ≠ q ∧ o.curId ≠ o.extId := by
  obtain ⟨hits, e, he, hpass, hadd⟩ := mem_getReadOverlaps hres ho
  obtain ⟨hx, _⟩ := reducePaths_passed d (d.seqLen q) (d.seqLen e.1) hmin e.2 hpass
  obtain ⟨hcur, hext, _⟩ := addOverlapShifts_fields hadd
  obtain ⟨hne, hids⟩ := runHits_ids d q (d.seqLen q) hits e he
  have h1 : o.curId = q := hcur.trans (hids _ hx).1
  have h2 : o.extId = e.1 := hext.trans (hids _ hx).2
  refine ⟨h1, h2 ▸ hne, ?_⟩
  rw [h1, h2]
  exact fun h => hne h.symm

/-- Witness for C7: the overlap found for read `0` of `sampleDetector`. -/
theorem no_self_overlaps_witness :
    1 ≤ sampleDetector.minimumOverlap ∧
    getReadOverlaps sampleDetector 0 = some [sampleOverlap] ∧
    sampleOverlap.curId = 0 ∧ sampleOverlap.extId ≠ 0 ∧
    sampleOverlap.curId ≠ sampleOverlap.extId :=
  ⟨by decide, by decide,
    no_self_overlaps sampleDetector 0 [sampleOverlap] sampleOverlap (by decide) (by decide)
      (List.mem_singleton.mpr rfl)⟩
/-! ## The driver -/

theorem reverse_reverse (o : OverlapRange) : o.reverse.reverse = o := by
  cases o
  simp [OverlapRange.reverse]

theorem mem_mapGet_mapPush (m : PathMap) (k A : ReadId) (o x : OverlapRange) :
    x ∈ mapGet (mapPush m k o) A ↔ x ∈ mapGet m A ∨ (A = k ∧ x = o) := by
  rw [mapGet_mapPush]
  by_cases h : k = A
  · subst h
    simp
  · have h' : ¬ A = k := fun e => h e.symm
    simp [h, h']

theorem mapHas_mapPush (m : PathMap) (k A : ReadId) (o : OverlapRange) :
    mapHas (mapPush m k o) A = (decide (k = A) || mapHas m A) := by
  unfold mapPush
  rw [mapHas_mapSet]

/-- The index after the commit of an overlap whose key is new: the four variants have been
appended, each to the list of its `curId`. -/
theorem mem_commitOverlap (d : Detector) (st : WorkerState) (o : OverlapRange)
    (hnew : (o.curId, o.extId) ∉ st.overlapMatrix) (A : ReadId) (x : OverlapRange) :
    x ∈ mapGet (commitOverlap d st o).overlapIndex A ↔
      (x ∈ mapGet st.overlapIndex A ∨ (A = o.curId ∧ x = o) ∨
        (A = o.extId ∧ x = o.reverse) ∨
        (A = d.rc o.extId ∧
          x = o.reverse.complement d.rc (d.seqLen o.extId) (d.seqLen o.curId)) ∨
        (A = d.rc o.curId ∧
          x = (o.reverse.complement d.rc (d.seqLen o.extId) (d.seqLen o.curId)).reverse)) := by
  unfold commitOverlap
  rw [if_neg hnew]
  simp only [appendVariant, mem_mapGet_mapPush]
  simp only [OverlapRange.reverse, OverlapRange.complement]
  tauto

theorem commitOverlap_index_of_mem (d : Detector) (st : WorkerState) (o : OverlapRange)
    (hold : (o.curId, o.extId) ∈ st.overlapMatrix) : commitOverlap d st o = st := by
  unfold commitOverlap
  rw [if_pos hold]

theorem commitOverlap_queried (d : Detector) (st : WorkerState) (o : OverlapRange) :
    (commitOverlap d st o).queried = st.queried := by
  unfold commitOverlap
  split
  · rfl
  · rfl

theorem commitOverlap_mapHas (d : Detector) (st : WorkerState) (o : OverlapRange) (r : ReadId)
    (h : mapHas st.overlapIndex r = true) :
    mapHas (commitOverlap d st o).overlapIndex r = true := by
  unfold commitOverlap
  split
  · exact h
  · simp only [appendVariant, mapHas_mapPush, h, Bool.or_true]

/-- The symmetry of the index is kept by the commit of one overlap. -/
theorem commitOverlap_symmetric (d : Detector) (st : WorkerState) (o : OverlapRange)
    (hsym : ∀ A x, x ∈ mapGet st.overlapIndex A → x.reverse ∈ mapGet st.overlapIndex x.extId) :
    ∀ A x, x ∈ mapGet (commitOverlap d st o).overlapIndex A →
      x.reverse ∈ mapGet (commitOverlap d st o).overlapIndex x.extId := by
  by_cases hold : (o.curId, o.extId) ∈ st.overlapMatrix
  · rw [commitOverlap_index_of_mem d st o hold]
    exact hsym
  · intro A x hx
    rw [mem_commitOverlap d st o hold] at hx ⊢
    rcases hx with h | ⟨_, h⟩ | ⟨_, h⟩ | ⟨_, h⟩ | ⟨_, h⟩
    · exact Or.inl (hsym A x h)
    · subst h
      exact Or.inr (Or.inr (Or.inl ⟨rfl, rfl⟩))
    · subst h
      exact Or.inr (Or.inl ⟨rfl, reverse_reverse o⟩)
    · subst h
      exact Or.inr (Or.inr (Or.inr (Or.inr ⟨rfl, rfl⟩)))
    · subst h
      exact Or.inr (Or.inr (Or.inr (Or.inl ⟨rfl, reverse_reverse _⟩)))

theorem foldl_commitOverlap_symmetric (d : Detector) (os : List OverlapRange)
    (st : WorkerState)
    (hsym : ∀ A x, x ∈ mapGet st.overlapIndex A → x.reverse ∈ mapGet st.overlapIndex x.extId) :
    ∀ A x, x ∈ mapGet (os.foldl (commitOverlap d) st).overlapIndex A →
      x.reverse ∈ mapGet (os.foldl (commitOverlap d) st).overlapIndex x.extId := by
  induction os generalizing st with
  | nil => exact hsym
  | cons o os ih => exact ih _ (commitOverlap_symmetric d st o hsym)

theorem foldl_commitOverlap_queried (d : Detector) (os : List OverlapRange)
    (st : WorkerState) : (os.foldl (commitOverlap d) st).queried = st.queried := by
  induction os generalizing st with
  | nil => rfl
  | cons o os ih => rw [List.foldl_cons, ih, commitOverlap_queried]

theorem foldl_commitOverlap_mapHas (d : Detector) (os : List OverlapRange)
    (st : WorkerState) (r : ReadId) (h : mapHas st.overlapIndex r = true) :
    mapHas (os.foldl (commitOverlap d) st).overlapIndex r = true := by
  induction os generalizing st with
  | nil => exact h
  | cons o os ih => exact ih _ (commitOverlap_mapHas d st o r h)

theorem workerStep_symmetric (d : Detector) (st st' : WorkerState) (r : ReadId)
    (h : workerStep d st r = some st')
    (hsym : ∀ A x, x ∈ mapGet st.overlapIndex A → x.reverse ∈ mapGet st.overlapIndex x.extId) :
    ∀ A x, x ∈ mapGet st'.overlapIndex A → x.reverse ∈ mapGet st'.overlapIndex x.extId := by
  unfold workerStep at h
  simp only [] at h
  have htouch : ∀ A x, x ∈ mapGet (mapTouch st.overlapIndex r) A →
      x.reverse ∈ mapGet (mapTouch st.overlapIndex r) x.extId := by
    intro A x hx
    rw [mapGet_mapTouch] at hx ⊢
    exact hsym A x hx
  split at h
  · simp only [Option.some.injEq] at h
    subst h
    exact htouch
  · cases hg : getReadOverlaps d r with
    | none => rw [hg] at h; cases h
    | some os =>
      rw [hg] at h
      simp only [Option.some.injEq] at h
      subst h
      exact foldl_commitOverlap_symmetric d os _ htouch

theorem parallelWorker_symmetric (d : Detector) (jobs : List ReadId) (st st' : WorkerState)
    (h : parallelWorker d jobs st = some st')
    (hsym : ∀ A x, x ∈ mapGet st.overlapIndex A → x.reverse ∈ mapGet st.overlapIndex x.extId) :
    ∀ A x, x ∈ mapGet st'.overlapIndex A → x.reverse ∈ mapGet st'.overlapIndex x.extId := by
  induction jobs generalizing st with
  | nil =>
    simp only [parallelWorker, Option.some.injEq] at h
    subst h
    exact hsym
  | cons r jobs ih =>
    simp only [parallelWorker] at h
    cases hw : workerStep d st r with
    | none => rw [hw] at h; cases h
    | some st1 =>
      rw [hw] at h
      exact ih st1 h (workerStep_symmetric d st st1 r hw hsym)

/-- C8 fails on a read that overlaps its own reverse strand.  For `hairpinDetector`,
`getReadOverlaps(0)` returns one overlap, with `extId = 1 = rc(0)`; its commit appends the
overlap and, as third variant, the complement of its reverse, whose key is `(0, 1)` again:
the list of read `0` ends with two overlaps whose `extId` is `1`. -/
theorem hairpin_duplicate_pair :
    getReadOverlaps hairpinDetector 0 = some [hairpinOverlap] ∧
    (findAllOverlaps hairpinDetector).map (fun st => mapGet st.overlapIndex 0) =
      some [hairpinOverlap, hairpinOverlap.reverse.complement sampleRc 6 6] ∧
    hairpinOverlap.extId = 1 ∧
    (hairpinOverlap.reverse.complement sampleRc 6 6).extId = 1 ∧
    hairpinOverlap ≠ hairpinOverlap.reverse.complement sampleRc 6 6 := by
  decide

/-- C9: symmetry of the result.  When the single worker has emptied the queue, for every
overlap `o` in `overlapIndex[A]` the overlap `reverse(o)` is in `overlapIndex[o.extId]`. -/
theorem index_symmetric (d : Detector) (st : WorkerState) (A : ReadId) (o : OverlapRange)
    (hrun : findAllOverlaps d = some st) (ho : o ∈ mapGet st.overlapIndex A) :
    o.reverse ∈ mapGet st.overlapIndex o.extId :=
  parallelWorker_symmetric d d.seqIds _ st hrun (fun _ _ h => nomatch h) A o ho

/-- Witness for C9: the run on `sampleDetector`; the reverse of the overlap of read `0` is in
the list of read `2`. -/
theorem index_symmetric_witness :
    findAllOverlaps sampleDetector = some sampleRun ∧
    sampleOverlap ∈ mapGet sampleRun.overlapIndex 0 ∧
    sampleOverlap.reverse ∈ mapGet sampleRun.overlapIndex 2 :=
  ⟨by decide, by decide,
    index_symmetric sampleDetector sampleRun 0 sampleOverlap (by decide) (by decide)⟩
theorem mapHas_mapTouch_self (m : PathMap) (r : ReadId) : mapHas (mapTouch m r) r = true := by
  unfold mapTouch
  rw [mapHas_mapSet]
  simp

theorem mapHas_mapTouch_of (m : PathMap) (r k : ReadId) (h : mapHas m k = true) :
    mapHas (mapTouch m r) k = true := by
  unfold mapTouch
  rw [mapHas_mapSet, h, Bool.or_true]

/-- One job: the key of the job exists afterwards, keys are never removed, and the job is
recorded as a query only when the length guard let it through. -/
theorem workerStep_entries (d : Detector) (st st' : WorkerState) (r : ReadId)
    (h : workerStep d st r = some st') :
    mapHas st'.overlapIndex r = true ∧
    (∀ k, mapHas st.overlapIndex k = true → mapHas st'.overlapIndex k = true) ∧
    (∀ k ∈ st'.queried, k ∈ st.queried ∨ ¬ d.seqLen k < toSizeT d.minimumOverlap) := by
  unfold workerStep at h
  simp only [] at h
  split at h
  · simp only [Option.some.injEq] at h
    subst h
    exact ⟨mapHas_mapTouch_self _ _, fun k hk => mapHas_mapTouch_of _ _ _ hk,
      fun k hk => Or.inl hk⟩
  · rename_i hlen
    cases hg : getReadOverlaps d r with
    | none => rw [hg] at h; cases h
    | some os =>
      rw [hg] at h
      simp only [Option.some.injEq] at h
      subst h
      refine ⟨foldl_commitOverlap_mapHas d os _ r (mapHas_mapTouch_self _ _),
        fun k hk => foldl_commitOverlap_mapHas d os _ k (mapHas_mapTouch_of _ _ _ hk), ?_⟩
      intro k hk
      rw [foldl_commitOverlap_queried] at hk
      rcases List.mem_append.mp hk with h1 | h1
      · exact Or.inl h1
      · rw [List.mem_singleton.mp h1]
        exact Or.inr hlen

theorem parallelWorker_entries (d : Detector) (jobs : List ReadId) (st st' : WorkerState)
    (h : parallelWorker d jobs st = some st') :
    (∀ k, mapHas st.overlapIndex k = true → mapHas st'.overlapIndex k = true) ∧
    (∀ r ∈ jobs, mapHas st'.overlapIndex r = true) ∧
    (∀ k ∈ st'.queried, k ∈ st.queried ∨ ¬ d.seqLen k < toSizeT d.minimumOverlap) := by
  induction jobs generalizing st with
  | nil =>
    simp only [parallelWorker, Option.some.injEq] at h
    subst h
    exact ⟨fun _ hk => hk, fun _ hr => absurd hr (List.not_mem_nil _), fun _ hk => Or.inl hk⟩
  | cons r jobs ih =>
    simp only [parallelWorker] at h
    cases hw : workerStep d st r with
    | none => rw [hw] at h; cases h
    | some st1 =>
      rw [hw] at h
      obtain ⟨h1, h2, h3⟩ := workerStep_entries d st st1 r hw
      obtain ⟨i1, i2, i3⟩ := ih st1 h
      refine ⟨fun k hk => i1 k (h2 k hk), ?_, ?_⟩
      · intro x hx
        rcases List.mem_cons.mp hx with hx | hx
        · rw [hx]
          exact i1 r h1
        · exact i2 x hx
      · intro k hk
        rcases i3 k hk with hq | hq
        · exact h3 k hq
        · exact Or.inr hq

theorem toSizeT_of_nonneg (x : Int) (h0 : 0 ≤ x) (h1 : x < 2 ^ 64) : (toSizeT x : Int) = x := by
  unfold toSizeT
  rw [Int.emod_eq_of_lt h0 h1, Int.toNat_of_nonneg h0]

/-- C10: when the single worker has emptied the queue, every read of the sequence container
is a key of `overlapIndex`, and no read that the length guard `seqLen(readId) <
(size_t)_minimumOverlap` rejects was passed to `getReadOverlaps`; for a `minimumOverlap`
below `2 ^ 64` (every `int32_t` value), no read shorter than `minimumOverlap` was. -/
theorem every_read_has_entry (d : Detector) (st : WorkerState)
    (hrun : findAllOverlaps d = some st) :
    (∀ r ∈ d.seqIds, mapHas st.overlapIndex r = true) ∧
    (∀ r ∈ st.queried, ¬ d.seqLen r < toSizeT d.minimumOverlap) ∧
    (d.minimumOverlap < 2 ^ 64 →
      ∀ r ∈ st.queried, ¬ (d.seqLen r : Int) < d.minimumOverlap) := by
  obtain ⟨_, h2, h3⟩ := parallelWorker_entries d d.seqIds _ st hrun
  have hq : ∀ r ∈ st.queried, ¬ d.seqLen r < toSizeT d.minimumOverlap := by
    intro r hr
    rcases h3 r hr with h | h
    · cases h
    · exact h
  refine ⟨h2, hq, ?_⟩
  intro hsmall r hr hlt
  have hge := hq r hr
  by_cases h0 : 0 ≤ d.minimumOverlap
  · have := toSizeT_of_nonneg d.minimumOverlap h0 hsmall
    omega
  · omega

/-- Witness for C10: the run on `sampleDetector`, whose four reads all get an entry. -/
theorem every_read_has_entry_witness :
    findAllOverlaps sampleDetector = some sampleRun ∧
    (∀ r ∈ sampleDetector.seqIds, mapHas sampleRun.overlapIndex r = true) ∧
    (∀ r ∈ sampleRun.queried, ¬ sampleDetector.seqLen r < toSizeT sampleDetector.minimumOverlap) ∧
    (sampleDetector.minimumOverlap < 2 ^ 64 →
      ∀ r ∈ sampleRun.queried, ¬ (sampleDetector.seqLen r : Int) < sampleDetector.minimumOverlap) :=
  ⟨by decide, every_read_has_entry sampleDetector sampleRun (by decide)⟩

/-! ## The geometry helpers -/

/-- C15: round trip L1.  `reverse` swaps `(curId, extId)`, `(curBegin, extBegin)`,
`(curEnd, extEnd)` and negates both shifts, and `reverse(reverse(o)) = o` for every
`OverlapRange` `o`, all eight fields included. -/
theorem reverse_involutive (o : OverlapRange) :
    o.reverse.reverse = o ∧
    o.reverse.curId = o.extId ∧ o.reverse.extId = o.curId ∧
    o.reverse.curBegin = o.extBegin ∧ o.reverse.extBegin = o.curBegin ∧
    o.reverse.curEnd = o.extEnd ∧ o.reverse.extEnd = o.curEnd ∧
    o.reverse.leftShift = -o.leftShift ∧ o.reverse.rightShift = -o.rightShift :=
  ⟨reverse_reverse o, rfl, rfl, rfl, rfl, rfl, rfl, rfl, rfl⟩

/-- C16: round trip L2.  Applying `complement(cL, eL)` twice restores the four coordinates,
and `complement` maps a range with `curBegin ≤ curEnd` and `extBegin ≤ extEnd` to a range
that is ordered again. -/
theorem complement_round_trip (rc : ReadId → ReadId) (o : OverlapRange) (cL eL : Int) :
    ((o.complement rc cL eL).complement rc cL eL).curBegin = o.curBegin ∧
    ((o.complement rc cL eL).complement rc cL eL).curEnd = o.curEnd ∧
    ((o.complement rc cL eL).complement rc cL eL).extBegin = o.extBegin ∧
    ((o.complement rc cL eL).complement rc cL eL).extEnd = o.extEnd ∧
    (o.curBegin ≤ o.curEnd → o.extBegin ≤ o.extEnd →
      (o.complement rc cL eL).curBegin ≤ (o.complement rc cL eL).curEnd ∧
      (o.complement rc cL eL).extBegin ≤ (o.complement rc cL eL).extEnd) := by
  simp only [OverlapRange.complement]
  refine ⟨by omega, by omega, by omega, by omega, fun h1 h2 => ⟨by omega, by omega⟩⟩

/-- Witness for C16: the complement of `sampleOverlap` on reads of lengths 6 and 7. -/
theorem complement_round_trip_witness :
    ((sampleOverlap.complement sampleRc 6 7).complement sampleRc 6 7).curBegin =
      sampleOverlap.curBegin ∧
    ((sampleOverlap.complement sampleRc 6 7).complement sampleRc 6 7).curEnd =
      sampleOverlap.curEnd ∧
    ((sampleOverlap.complement sampleRc 6 7).complement sampleRc 6 7).extBegin =
      sampleOverlap.extBegin ∧
    ((sampleOverlap.complement sampleRc 6 7).complement sampleRc 6 7).extEnd =
      sampleOverlap.extEnd ∧
    (sampleOverlap.complement sampleRc 6 7).curBegin ≤
      (sampleOverlap.complement sampleRc 6 7).curEnd ∧
    (sampleOverlap.complement sampleRc 6 7).extBegin ≤
      (sampleOverlap.complement sampleRc 6 7).extEnd :=
  have h := complement_round_trip sampleRc sampleOverlap 6 7
  ⟨h.1, h.2.1, h.2.2.1, h.2.2.2.1, h.2.2.2.2 (by decide) (by decide)⟩

/-! ## The commit of one overlap -/

theorem mem_matrixInsert (m : List (ReadId × ReadId)) (key key' : ReadId × ReadId) :
    key' ∈ matrixInsert m key ↔ key' ∈ m ∨ key' = key := by
  unfold matrixInsert
  split
  · constructor
    · exact Or.inl
    · rintro (h | h)
      · exact h
      · rw [h]; assumption
  · simp

theorem mapGet_mapPush_curId (m : PathMap) (x : OverlapRange) (A : ReadId) :
    mapGet (mapPush m x.curId x) A =
      mapGet m A ++ [x].filter (fun y => decide (y.curId = A)) := by
  rw [mapGet_mapPush]
  by_cases h : x.curId = A
  · subst h
    simp
  · simp [h]

/-- C11: four-variant atomicity and order.  The commit of `o` leaves the state unchanged
exactly when the key `(o.curId, o.extId)` is already in the matrix.  Otherwise it appends
the four overlaps `o`, `reverse(o)`, `complement(reverse(o))`,
`reverse(complement(reverse(o)))` in this order, each to the list of its `curId` (so the
list of every read `A` grows by those of the four whose `curId` is `A`, in that order), and
the matrix gains exactly their four keys. -/
theorem commit_four_variants (d : Detector) (st : WorkerState) (o : OverlapRange) :
    (commitOverlap d st o = st ↔ (o.curId, o.extId) ∈ st.overlapMatrix) ∧
    ((o.curId, o.extId) ∉ st.overlapMatrix →
      (commitOverlap d st o).overlapIndex =
        mapPush (mapPush (mapPush (mapPush st.overlapIndex o.curId o)
          o.reverse.curId o.reverse)
          (o.reverse.complement d.rc (d.seqLen o.reverse.curId)
            (d.seqLen o.reverse.extId)).curId
          (o.reverse.complement d.rc (d.seqLen o.reverse.curId) (d.seqLen o.reverse.extId)))
          (o.reverse.complement d.rc (d.seqLen o.reverse.curId)
            (d.seqLen o.reverse.extId)).reverse.curId
          (o.reverse.complement d.rc (d.seqLen o.reverse.curId)
            (d.seqLen o.reverse.extId)).reverse ∧
      (∀ A, mapGet (commitOverlap d st o).overlapIndex A =
        mapGet st.overlapIndex A ++
          [o, o.reverse,
            o.reverse.complement d.rc (d.seqLen o.reverse.curId) (d.seqLen o.reverse.extId),
            (o.reverse.complement d.rc (d.seqLen o.reverse.curId)
              (d.seqLen o.reverse.extId)).reverse].filter (fun x => decide (x.curId = A))) ∧
      (∀ key, key ∈ (commitOverlap d st o).overlapMatrix ↔
        (key ∈ st.overlapMatrix ∨ key = (o.curId, o.extId) ∨ key = (o.extId, o.curId) ∨
          key = (d.rc o.extId, d.rc o.curId) ∨ key = (d.rc o.curId, d.rc o.extId))) ∧
      (commitOverlap d st o).queried = st.queried) := by
  have hnew : (o.curId, o.extId) ∉ st.overlapMatrix →
      (o.curId, o.extId) ∈ (commitOverlap d st o).overlapMatrix := by
    intro h
    unfold commitOverlap
    rw [if_neg h]
    simp only [appendVariant, mem_matrixInsert]
    tauto
  refine ⟨⟨fun h => ?_, fun h => commitOverlap_index_of_mem d st o h⟩, fun h => ⟨?_, ?_, ?_, ?_⟩⟩
  · by_contra hn
    have := hnew hn
    rw [h] at this
    exact hn this
  · unfold commitOverlap
    rw [if_neg h]
    rfl
  · intro A
    unfold commitOverlap
    rw [if_neg h]
    simp only [appendVariant, mapGet_mapPush_curId]
    simp only [List.append_assoc, ← List.filter_append]
    rfl
  · intro key
    unfold commitOverlap
    rw [if_neg h]
    simp only [appendVariant, mem_matrixInsert, OverlapRange.reverse, OverlapRange.complement]
    tauto
  · exact commitOverlap_queried d st o

/-- Witness for C11: the commit of `sampleOverlap` into the empty state. -/
theorem commit_four_variants_witness :
    (sampleOverlap.curId, sampleOverlap.extId) ∉ ([] : List (ReadId × ReadId)) ∧
    mapGet (commitOverlap sampleDetector ⟨[], [], []⟩ sampleOverlap).overlapIndex 0 =
      mapGet [] 0 ++
        [sampleOverlap, sampleOverlap.reverse,
          sampleOverlap.reverse.complement sampleDetector.rc
            (sampleDetector.seqLen sampleOverlap.reverse.curId)
            (sampleDetector.seqLen sampleOverlap.reverse.extId),
          (sampleOverlap.reverse.complement sampleDetector.rc
            (sampleDetector.seqLen sampleOverlap.reverse.curId)
            (sampleDetector.seqLen sampleOverlap.reverse.extId)).reverse].filter
          (fun x => decide (x.curId = 0)) :=
  ⟨by decide,
    ((commit_four_variants sampleDetector ⟨[], [], []⟩ sampleOverlap).2 (by decide)).2.1 0⟩

/-! ## Shift estimation -/

theorem shiftsOfKmer_eq (ovlp : OverlapRange) (curKmer : KmerPosition)
    (occs : List ReadPosition)
    (hbox : ovlp.curBegin ≤ curKmer.position ∧ curKmer.position ≤ ovlp.curEnd) :
    shiftsOfKmer ovlp curKmer occs =
      (((occs.map (fun extKmer => (curKmer, extKmer))).filter (insideOverlap ovlp)).map
        (fun hit => hit.1.position - hit.2.position)) := by
  unfold shiftsOfKmer
  induction occs with
  | nil => rfl
  | cons occ occs ih =>
    simp only [List.map_cons, List.filter_cons, insideOverlap, hbox, and_self, decide_True,
      Bool.true_and]
    split
    · simp only [List.map_cons]
      rw [ih]
    · rw [ih]

theorem offsets_outside (ovlp : OverlapRange) (curKmer : KmerPosition)
    (occs : List ReadPosition)
    (hbox : ¬ (ovlp.curBegin ≤ curKmer.position ∧ curKmer.position ≤ ovlp.curEnd)) :
    ((occs.map (fun extKmer => (curKmer, extKmer))).filter (insideOverlap ovlp)) = [] := by
  rw [List.filter_eq_nil_iff]
  intro hit hmem
  obtain ⟨occ, _, rfl⟩ := List.mem_map.mp hmem
  simp only [insideOverlap, hbox, decide_False, Bool.false_and, Bool.false_eq_true,
    not_false_eq_true]

theorem hitOffsets_cons (d : Detector) (ovlp : OverlapRange) (curKmer : KmerPosition)
    (rest : List KmerPosition) :
    hitOffsets d ovlp (curKmer :: rest) =
      ((((d.byKmer curKmer.kmer).getD []).map (fun extKmer => (curKmer, extKmer))).filter
        (insideOverlap ovlp)).map (fun hit => hit.1.position - hit.2.position) ++
      hitOffsets d ovlp rest := by
  simp only [hitOffsets, sharedHits, List.flatMap_cons, List.filter_append, List.map_append]

/-- The vector `ovlpShifts` built by `addOverlapShifts` holds the offsets of the shared hits
inside the overlap. -/
theorem collectShifts_eq_hitOffsets (d : Detector) (ovlp : OverlapRange)
    (kmers : List KmerPosition) (shifts : List Int)
    (h : collectShifts d ovlp kmers = some shifts) : shifts = hitOffsets d ovlp kmers := by
  induction kmers generalizing shifts with
  | nil =>
    simp only [collectShifts, Option.some.injEq] at h
    rw [← h]
    rfl
  | cons ck rest ih =>
    rw [hitOffsets_cons]
    simp only [collectShifts] at h
    by_cases hbox : ovlp.curBegin ≤ ck.position ∧ ck.position ≤ ovlp.curEnd
    · rw [if_pos hbox] at h
      cases hk : d.byKmer ck.kmer with
      | none => rw [hk] at h; cases h
      | some occs =>
        rw [hk] at h
        simp only [] at h
        cases hr : collectShifts d ovlp rest with
        | none => rw [hr] at h; cases h
        | some more =>
          rw [hr] at h
          simp only [Option.some.injEq] at h
          rw [← h, ih more hr, shiftsOfKmer_eq ovlp ck occs hbox]
          rfl
    · rw [if_neg hbox] at h
      rw [offsets_outside ovlp ck _ hbox, ih shifts h]
      rfl

/-- C12 as stated fails.  For `forkDetector` the overlap of reads `0` and `2` has the two
offsets `0` and `−1`; `addOverlapShifts` sets `leftShift = 0`, the element at index `1` of
the ascending sort `[−1, 0]`, and not the lower-middle element `−1` at index `0`. -/
theorem median_lower_middle_counterexample :
    hitOffsets forkDetector forkPath [⟨10, 0⟩, ⟨11, 3⟩] = [0, -1] ∧
    (addOverlapShifts forkDetector forkPath).map (fun o => o.leftShift) = some 0 ∧
    ([0, -1] : List Int).length % 2 = 0 ∧
    (([0, -1] : List Int).insertionSort (fun a b => a ≤ b))[([0, -1] : List Int).length / 2 - 1]?
      = some (-1) ∧
    median [0, -1] ≠
      (([0, -1] : List Int).insertionSort (fun a b => a ≤ b))[([0, -1] : List Int).length / 2 - 1]?
    := by
  decide

/-- C12, amended: `leftShift` is set to the median of the offsets `curKmer.position −
extKmer.position` of the shared k-mer hits inside `[curBegin, curEnd]` and
`[extBegin, extEnd]`, taken as the element at index `n / 2` of the ascending sort; for every
list of even size `n ≥ 2` this is the upper-middle element: the one that follows the
lower-middle element (index `n / 2 − 1`) in the sort, and so is at least as large. -/
theorem median_convention (d : Detector) (ovlp : OverlapRange) (vec : List Int) :
    (∀ o, addOverlapShifts d ovlp = some o →
      ∃ kmers, d.byRead ovlp.curId = some kmers ∧
        median (hitOffsets d ovlp kmers) = some o.leftShift) ∧
    median vec = (vec.insertionSort (fun a b => a ≤ b))[vec.length / 2]? ∧
    (vec.insertionSort (fun a b => a ≤ b)).Sorted (fun a b => a ≤ b) ∧
    (vec.insertionSort (fun a b => a ≤ b)).Perm vec ∧
    (vec.length % 2 = 0 → 0 < vec.length →
      ∃ lo hi, (vec.insertionSort (fun a b => a ≤ b))[vec.length / 2 - 1]? = some lo ∧
        median vec = some hi ∧ lo ≤ hi ∧ vec.length / 2 - 1 + 1 = vec.length / 2) := by
  refine ⟨?_, rfl, List.sorted_insertionSort _ _, List.perm_insertionSort _ _, ?_⟩
  · intro o h
    unfold addOverlapShifts at h
    cases hr : d.byRead ovlp.curId with
    | none => rw [hr] at h; cases h
    | some kmers =>
      rw [hr] at h
      simp only [] at h
      cases hc : collectShifts d ovlp kmers with
      | none => rw [hc] at h; cases h
      | some shifts =>
        rw [hc] at h
        simp only [] at h
        cases hm : median shifts with
        | none => rw [hm] at h; cases h
        | some m =>
          rw [hm] at h
          simp only [Option.some.injEq] at h
          subst h
          refine ⟨kmers, rfl, ?_⟩
          rw [← collectShifts_eq_hitOffsets d ovlp kmers shifts hc]
          exact hm
  · intro heven hpos
    have hlen : (vec.insertionSort (fun a b => a ≤ b)).length = vec.length :=
      List.length_insertionSort _ _
    have hsorted : (vec.insertionSort (fun a b => a ≤ b)).Sorted (fun a b => a ≤ b) :=
      List.sorted_insertionSort _ _
    have hj : vec.length / 2 < (vec.insertionSort (fun a b => a ≤ b)).length := by omega
    have hi : vec.length / 2 - 1 < (vec.insertionSort (fun a b => a ≤ b)).length := by omega
    have hij : vec.length / 2 - 1 < vec.length / 2 := by omega
    refine ⟨(vec.insertionSort (fun a b => a ≤ b)).get ⟨vec.length / 2 - 1, hi⟩,
      (vec.insertionSort (fun a b => a ≤ b)).get ⟨vec.length / 2, hj⟩, ?_, ?_, ?_, by omega⟩
    · exact List.getElem?_eq_getElem hi
    · unfold median
      exact List.getElem?_eq_getElem hj
    · exact hsorted.rel_get_of_lt (a := ⟨vec.length / 2 - 1, hi⟩) (b := ⟨vec.length / 2, hj⟩) hij

/-- Witness for C12, amended: `forkDetector`, whose overlap has the offsets `[0, −1]`. -/
theorem median_convention_witness :
    addOverlapShifts forkDetector forkPath =
      some { forkPath with leftShift := 0, rightShift := 1 } ∧
    (∃ kmers, forkDetector.byRead forkPath.curId = some kmers ∧
      median (hitOffsets forkDetector forkPath kmers) = some 0) ∧
    (∃ lo hi, (([0, -1] : List Int).insertionSort (fun a b => a ≤ b))[
        ([0, -1] : List Int).length / 2 - 1]? = some lo ∧
      median [0, -1] = some hi ∧ lo ≤ hi ∧
      ([0, -1] : List Int).length / 2 - 1 + 1 = ([0, -1] : List Int).length / 2) :=
  ⟨by decide,
    (median_convention forkDetector forkPath [0, -1]).1
      { forkPath with leftShift := 0, rightShift := 1 } (by decide),
    (median_convention forkDetector forkPath [0, -1]).2.2.2.2 (by decide) (by decide)⟩

/-! ## The scenarios of the specification -/

set_option maxRecDepth 100000 in
theorem scenarioS4_result : getReadOverlaps scenarioS4 0 = some [] := by
  decide

/-- C13 as stated fails: in scenario S4 `getReadOverlaps(A)` does not return one overlap
for `B` with `curRange ≥ 85` and `min(curBegin, extBegin) = 5`. -/
theorem scenarioS4_counterexample :
    ¬ ∃ o, getReadOverlaps scenarioS4 0 = some [o] ∧ o.extId = 2 ∧ o.curRange ≥ 85 ∧
      min o.curBegin o.extBegin = 5 := by
  rintro ⟨o, h, _⟩
  rw [scenarioS4_result] at h
  cases h

/-- C13, amended: in scenario S4 `getReadOverlaps(A)` returns no overlap.  No chain starts,
because `goodStart` rejects every hit `(p, p)` with `p ≥ 5 = maximumOverhang`; and a chain
from `(5, 5)` to `(90, 90)` would not pass `overlapTest`, its overhang at the end being
`min(100 − 90, 100 − 90) = 10 > maximumOverhang`. -/
theorem scenarioS4_no_overlap :
    getReadOverlaps scenarioS4 0 = some [] ∧
    (∀ p : Int, 5 ≤ p → goodStart scenarioS4 p p 100 100 = false) ∧
    overlapTest scenarioS4
      { curId := 0, curBegin := 5, curEnd := 90, leftShift := 0, rightShift := 0,
        extId := 2, extBegin := 5, extEnd := 90 } 100 100 = false := by
  refine ⟨scenarioS4_result, ?_, by decide⟩
  intro p hp
  have h : ¬ (min p p < scenarioS4.maximumOverhang) := by
    show ¬ (min p p < 5)
    rw [min_self]
    omega
  simp only [goodStart, h, decide_False, Bool.false_and]

/-- Witness for C13, amended: the hit `(5, 5)` is rejected by `goodStart`. -/
theorem scenarioS4_no_overlap_witness :
    (5 : Int) ≤ 5 ∧ goodStart scenarioS4 5 5 100 100 = false :=
  ⟨le_refl _, scenarioS4_no_overlap.2.1 5 (le_refl _)⟩

set_option maxRecDepth 100000 in
/-- C14: scenario S1.  The eighteen k-mers of the two reads are pairwise distinct, the hits
shared with read `B` are `(p, p)` for `p = 0..17`, and `getReadOverlaps(A)` returns exactly
one overlap, with `curId = A`, `extId = B`, `curBegin = extBegin = 0`, `curEnd = extEnd = 17`
and both shifts `0`. -/
theorem scenarioS1_result :
    ((diagonalKmers 0 18).map (fun k => k.kmer)).Nodup ∧
    (((sharedHits scenarioS1 (diagonalKmers 0 18)).filter
        (fun hit => decide (hit.2.readId = 2))).map
        (fun hit => (hit.1.position, hit.2.position)) =
      (List.range 18).map (fun p => ((p : Int), (p : Int)))) ∧
    getReadOverlaps scenarioS1 0 =
      some [{ curId := 0, curBegin := 0, curEnd := 17, leftShift := 0, rightShift := 0,
              extId := 2, extBegin := 0, extEnd := 17 }] := by
  decide

/-! ## Exactness of the clean-up pass -/

theorem unmarkedFrom_append (marks : List Nat) (a b : List OverlapRange) (k : Nat) :
    unmarkedFrom marks (a ++ b) k = unmarkedFrom marks a k ++ unmarkedFrom marks b (k + a.length) := by
  induction a generalizing k with
  | nil => simp [unmarkedFrom]
  | cons x a ih =>
    have e : k + 1 + a.length = k + (a.length + 1) := by omega
    have ih' := ih (k + 1)
    rw [e] at ih'
    show unmarkedFrom marks (x :: (a ++ b)) k = _
    simp only [unmarkedFrom, List.length_cons]
    split
    · exact ih'
    · rw [ih', List.cons_append]

theorem unmarkedFrom_congr (marks marks' : List Nat) (a : List OverlapRange) (k : Nat)
    (h : ∀ j, k ≤ j → j < k + a.length → (j ∈ marks ↔ j ∈ marks')) :
    unmarkedFrom marks a k = unmarkedFrom marks' a k := by
  induction a generalizing k with
  | nil => rfl
  | cons x a ih =>
    have hk := h k (le_refl _) (by simp)
    have hrest := ih (k + 1) (fun j h1 h2 => h j (by omega) (by simp only [List.length_cons]; omega))
    simp only [unmarkedFrom, hrest]
    by_cases hm : k ∈ marks
    · rw [if_pos hm, if_pos (hk.mp hm)]
    · rw [if_neg hm, if_neg (fun h' => hm (hk.mpr h'))]

theorem unmarkedFrom_of_lt (marks : List Nat) (a : List OverlapRange) (k : Nat)
    (h : ∀ j ∈ marks, j < k) : unmarkedFrom marks a k = a := by
  induction a generalizing k with
  | nil => rfl
  | cons x a ih =>
    have hk : k ∉ marks := fun hm => Nat.lt_irrefl _ (h k hm)
    simp only [unmarkedFrom, if_neg hk]
    rw [ih (k + 1) (fun j hj => Nat.lt_succ_of_lt (h j hj))]

/-- The vector after one clean-up step at the index `pre.length`: the last element has taken
the place of the erased one. -/
theorem eraseAt_append (pre post : List OverlapRange) (x : OverlapRange) :
    ∃ post', eraseAt (pre ++ x :: post) pre.length = pre ++ post' ∧ post'.Perm post := by
  unfold eraseAt
  rcases List.eq_nil_or_concat post with hp | ⟨init, b, hp⟩ <;>
    try rw [List.concat_eq_append] at hp
  · subst hp
    refine ⟨[], ?_, List.Perm.refl _⟩
    have : (pre ++ [x]).getLast? = some x := by simp
    rw [this]
    simp
  · subst hp
    refine ⟨b :: init, ?_, ?_⟩
    · have hlast : (pre ++ x :: (init ++ [b])).getLast? = some b := by
        rw [show pre ++ x :: (init ++ [b]) = (pre ++ x :: init) ++ [b] by simp]
        exact List.getLast?_concat _
      rw [hlast]
      simp only []
      have hset : (pre ++ x :: (init ++ [b])).set pre.length b = (pre ++ b :: init) ++ [b] := by
        rw [List.set_append_right _ _ (le_refl _)]
        simp
      rw [hset, List.dropLast_concat]
    · exact (List.perm_append_singleton b init).symm

theorem length_foldl_eraseAt_ge (ds : List Nat) (v : List OverlapRange) :
    v.length - ds.length ≤ (ds.foldl eraseAt v).length := by
  rw [length_foldl_eraseAt]

/-- The clean-up steps at strictly descending indices of the vector stay in range and leave
the elements at the other indices. -/
theorem foldl_eraseAt_exact (ds : List Nat) :
    ∀ v : List OverlapRange, (∀ i ∈ ds, i < v.length) → ds.Pairwise (fun a b => b < a) →
      eraseAllChecked ds v = some (ds.foldl eraseAt v) ∧
      (ds.foldl eraseAt v).Perm (unmarkedFrom ds v 0) := by
  induction ds with
  | nil =>
    intro v _ _
    refine ⟨rfl, ?_⟩
    rw [unmarkedFrom_of_lt [] v 0 (fun _ h => absurd h (List.not_mem_nil _))]
    exact List.Perm.refl _
  | cons i ds ih =>
    intro v hlt hdesc
    have hi : i < v.length := hlt i (List.mem_cons_self _ _)
    have hbelow : ∀ j ∈ ds, j < i := (List.pairwise_cons.mp hdesc).1
    have hdesc' : ds.Pairwise (fun a b => b < a) := (List.pairwise_cons.mp hdesc).2
    -- split the vector at the index `i`
    obtain ⟨pre, x, post, hv, hpre⟩ : ∃ pre x post, v = pre ++ x :: post ∧ pre.length = i := by
      refine ⟨v.take i, v[i], v.drop (i + 1), ?_, ?_⟩
      · rw [← List.drop_eq_getElem_cons hi, List.take_append_drop]
      · exact List.length_take_of_le (Nat.le_of_lt hi)
    subst hv
    obtain ⟨post', hw, hperm⟩ := eraseAt_append pre post x
    rw [hpre] at hw
    have hwlen : ∀ j ∈ ds, j < (pre ++ post').length := by
      intro j hj
      have := hbelow j hj
      simp only [List.length_append]
      omega
    obtain ⟨ih1, ih2⟩ := ih (pre ++ post') hwlen hdesc'
    constructor
    · simp only [eraseAllChecked, eraseAtChecked, if_pos hi, hw, List.foldl_cons]
      exact ih1
    · simp only [List.foldl_cons, hw]
      refine ih2.trans ?_
      rw [unmarkedFrom_append, unmarkedFrom_append]
      have e1 : unmarkedFrom ds post' (0 + pre.length) = post' :=
        unmarkedFrom_of_lt ds post' _ (fun j hj => by have := hbelow j hj; omega)
      have e2 : unmarkedFrom (i :: ds) (x :: post) (0 + pre.length) = post := by
        have hmem : 0 + pre.length ∈ i :: ds := by
          rw [Nat.zero_add, hpre]
          exact List.mem_cons_self _ _
        simp only [unmarkedFrom, if_pos hmem]
        apply unmarkedFrom_of_lt
        intro j hj
        rcases List.mem_cons.mp hj with h | h
        · omega
        · have := hbelow j h
          omega
      have e3 : unmarkedFrom ds pre 0 = unmarkedFrom (i :: ds) pre 0 := by
        apply unmarkedFrom_congr
        intro j _ hj
        constructor
        · exact List.mem_cons_of_mem _
        · intro h
          rcases List.mem_cons.mp h with h | h
          · omega
          · exact h
      rw [e1, e2, e3]
      exact List.Perm.append_left _ hperm

theorem erasePass_exact (v : List OverlapRange) (marks : List Nat)
    (hsorted : marks.Pairwise (fun a b => a < b)) (hlt : ∀ i ∈ marks, i < v.length) :
    erasePassChecked v marks = some (erasePass v marks) ∧
    (erasePass v marks).Perm (unmarked v marks) := by
  have h := foldl_eraseAt_exact marks.reverse v
    (fun i hi => hlt i (List.mem_reverse.mp hi)) (List.pairwise_reverse.mpr hsorted)
  refine ⟨h.1, h.2.trans ?_⟩
  rw [unmarked, unmarkedFrom_congr marks.reverse marks v 0 (fun j _ _ => List.mem_reverse)]

/-- C18: exactness of the erasure pass.  For a path vector `v` and a set `M` of indices of
`v` (a strictly ascending list), visiting `M` from the largest to the smallest index with
`v[i] = v.back(); v.pop_back()` never leaves the bounds of the current vector, and the
result has `|v| − |M|` elements: up to order, the elements of `v` at the indices not in
`M`. -/
theorem erasure_pass_exact (v : List OverlapRange) (marks : List Nat)
    (hsorted : marks.Sorted (fun a b => a < b)) (hlt : ∀ i ∈ marks, i < v.length) :
    erasePassChecked v marks = some (erasePass v marks) ∧
    (erasePass v marks).length = v.length - marks.length ∧
    (erasePass v marks).Perm (unmarked v marks) :=
  ⟨(erasePass_exact v marks hsorted hlt).1, length_erasePass marks v,
    (erasePass_exact v marks hsorted hlt).2⟩

/-- Witness for C18: erasing the indices `0` and `2` of a vector of three paths. -/
theorem erasure_pass_exact_witness :
    ([0, 2] : List Nat).Sorted (fun a b => a < b) ∧
    (∀ i ∈ ([0, 2] : List Nat), i < [sampleOverlap, forkPath, hairpinOverlap].length) ∧
    erasePass [sampleOverlap, forkPath, hairpinOverlap] [0, 2] = [forkPath] ∧
    erasePassChecked [sampleOverlap, forkPath, hairpinOverlap] [0, 2] =
      some (erasePass [sampleOverlap, forkPath, hairpinOverlap] [0, 2]) ∧
    (erasePass [sampleOverlap, forkPath, hairpinOverlap] [0, 2]).length =
      [sampleOverlap, forkPath, hairpinOverlap].length - ([0, 2] : List Nat).length ∧
    (erasePass [sampleOverlap, forkPath, hairpinOverlap] [0, 2]).Perm
      (unmarked [sampleOverlap, forkPath, hairpinOverlap] [0, 2]) :=
  ⟨by decide, by decide, by decide,
    erasure_pass_exact [sampleOverlap, forkPath, hairpinOverlap] [0, 2] (by decide) (by decide)⟩

/-! ## What the scan computes -/

theorem setInsert_of_lt (x : Nat) (l : List Nat) (h : ∀ i ∈ l, i < x) :
    setInsert x l = l ++ [x] := by
  induction l with
  | nil => rfl
  | cons y ys ih =>
    have hy : y < x := h y (List.mem_cons_self _ _)
    have h1 : ¬ x < y := by omega
    have h2 : ¬ x = y := by omega
    simp only [setInsert, if_neg h1, if_neg h2, List.cons_append]
    rw [ih (fun i hi => h i (List.mem_cons_of_mem _ hi))]

theorem scanStep_eraseMarks (d : Detector) (curPos extPos : Int) (s : ScanState) (k : Nat)
    (p : OverlapRange) :
    (scanStep d curPos extPos s k p).eraseMarks =
      if isClose d curPos extPos p then setInsert k s.eraseMarks else s.eraseMarks := by
  unfold scanStep isClose
  simp only []
  cases hj : jumpTest d p.curEnd curPos p.extEnd extPos <;> simp only [] <;>
    split_ifs <;> simp_all

theorem mem_closeIdxFrom (d : Detector) (curPos extPos : Int) (a : List OverlapRange)
    (k i : Nat) :
    i ∈ closeIdxFrom d curPos extPos a k ↔
      ∃ j x, a[j]? = some x ∧ isClose d curPos extPos x = true ∧ i = k + j := by
  induction a generalizing k with
  | nil => simp [closeIdxFrom]
  | cons p a ih =>
    simp only [closeIdxFrom]
    constructor
    · intro h
      split at h
      · rename_i hc
        rcases List.mem_cons.mp h with h | h
        · exact ⟨0, p, by simp, hc, by omega⟩
        · obtain ⟨j, x, hx, hcx, hi⟩ := (ih (k + 1)).mp h
          exact ⟨j + 1, x, by simpa using hx, hcx, by omega⟩
      · obtain ⟨j, x, hx, hcx, hi⟩ := (ih (k + 1)).mp h
        exact ⟨j + 1, x, by simpa using hx, hcx, by omega⟩
    · rintro ⟨j, x, hx, hcx, hi⟩
      cases j with
      | zero =>
        simp only [List.getElem?_cons_zero, Option.some.injEq] at hx
        subst hx
        rw [if_pos hcx]
        exact List.mem_cons.mpr (Or.inl (by omega))
      | succ j =>
        simp only [List.getElem?_cons_succ] at hx
        have : i ∈ closeIdxFrom d curPos extPos a (k + 1) :=
          (ih (k + 1)).mpr ⟨j, x, hx, hcx, by omega⟩
        split
        · exact List.mem_cons_of_mem _ this
        · exact this

theorem closeIdxFrom_ge (d : Detector) (curPos extPos : Int) (a : List OverlapRange)
    (k i : Nat) (h : i ∈ closeIdxFrom d curPos extPos a k) : k ≤ i ∧ i < k + a.length := by
  obtain ⟨j, x, hx, _, hi⟩ := (mem_closeIdxFrom d curPos extPos a k i).mp h
  have hj : j < a.length := by
    by_contra hn
    rw [List.getElem?_eq_none (by omega)] at hx
    cases hx
  omega

theorem closeIdxFrom_sorted (d : Detector) (curPos extPos : Int) (a : List OverlapRange)
    (k : Nat) : (closeIdxFrom d curPos extPos a k).Pairwise (fun x y => x < y) := by
  induction a generalizing k with
  | nil => exact List.Pairwise.nil
  | cons p a ih =>
    simp only [closeIdxFrom]
    split
    · refine List.pairwise_cons.mpr ⟨fun j hj => ?_, ih (k + 1)⟩
      have := (closeIdxFrom_ge d curPos extPos a (k + 1) j hj).1
      omega
    · exact ih (k + 1)

/-- After the scan `eraseMarks` holds the indices of the `J_CLOSE` paths. -/
theorem scanPaths_eraseMarks (d : Detector) (curPos extPos : Int) (rest : List OverlapRange) :
    ∀ (k : Nat) (s : ScanState), (∀ i ∈ s.eraseMarks, i < k) →
      (scanPaths d curPos extPos rest k s).eraseMarks =
        s.eraseMarks ++ closeIdxFrom d curPos extPos rest k := by
  induction rest with
  | nil =>
    intro k s _
    simp [scanPaths, closeIdxFrom]
  | cons p rest ih =>
    intro k s hs
    simp only [scanPaths, closeIdxFrom]
    have hstep := scanStep_eraseMarks d curPos extPos s k p
    by_cases hc : isClose d curPos extPos p = true
    · rw [if_pos hc] at hstep ⊢
      rw [setInsert_of_lt k s.eraseMarks hs] at hstep
      rw [ih (k + 1) _ (by
        intro i hi
        rw [hstep] at hi
        rcases List.mem_append.mp hi with h | h
        · exact Nat.lt_succ_of_lt (hs i h)
        · rw [List.mem_singleton.mp h]
          exact Nat.lt_succ_self _), hstep]
      simp
    · rw [if_neg hc] at hstep ⊢
      rw [ih (k + 1) _ (by
        intro i hi
        rw [hstep] at hi
        exact Nat.lt_succ_of_lt (hs i hi)), hstep]

/-- The record of a class is kept by a path outside the class. -/
theorem BestSoFar.skip {all : List OverlapRange} {curPos : Int} {cls : OverlapRange → Bool}
    {n : Nat} {flag : Bool} {id : Nat} {len : Int} {p : OverlapRange}
    (h : BestSoFar all curPos cls n flag id len) (hp : all[n]? = some p)
    (hc : cls p = false) : BestSoFar all curPos cls (n + 1) flag id len := by
  have hcases : ∀ j x, j < n + 1 → all[j]? = some x → cls x = true → j < n := by
    intro j x hj hx hcx
    rcases Nat.lt_succ_iff_lt_or_eq.mp hj with h1 | h1
    · exact h1
    · subst h1
      rw [hp] at hx
      cases hx
      rw [hc] at hcx
      cases hcx
  refine ⟨fun hf => ⟨(h.1 hf).1, fun j x hj hx => ?_⟩, fun hf => ?_⟩
  · cases hcx : cls x with
    | false => rfl
    | true => exact ((h.1 hf).2 j x (hcases j x hj hx hcx) hx).symm ▸ hcx ▸ rfl
  · obtain ⟨q, hq, hcq, hlen, hmax, hfirst⟩ := h.2 hf
    exact ⟨q, hq, hcq, hlen, fun j x hj hx hcx => hmax j x (hcases j x hj hx hcx) hx hcx, hfirst⟩

/-- The record of a class after a path of the class with a longer jump. -/
theorem BestSoFar.take {all : List OverlapRange} {curPos : Int} {cls : OverlapRange → Bool}
    {n : Nat} {flag : Bool} {id : Nat} {len : Int} {p : OverlapRange}
    (h : BestSoFar all curPos cls n flag id len) (hp : all[n]? = some p)
    (hc : cls p = true) (hgt : curPos - p.curEnd > len) :
    BestSoFar all curPos cls (n + 1) true n (curPos - p.curEnd) := by
  have hle : ∀ j x, j < n → all[j]? = some x → cls x = true → curPos - x.curEnd ≤ len := by
    intro j x hj hx hcx
    cases hf : flag with
    | false =>
      have := (h.1 hf).2 j x hj hx
      rw [this] at hcx
      cases hcx
    | true =>
      obtain ⟨_, _, _, _, hmax, _⟩ := h.2 hf
      exact hmax j x hj hx hcx
  refine ⟨fun hf => (by cases hf), fun _ => ⟨p, hp, hc, rfl, fun j x hj hx hcx => ?_,
    fun j x hj hx hcx => ?_⟩⟩
  · rcases Nat.lt_succ_iff_lt_or_eq.mp hj with h1 | h1
    · have := hle j x h1 hx hcx
      omega
    · subst h1
      rw [hp] at hx
      cases hx
      exact le_refl _
  · have := hle j x hj hx hcx
    omega

/-- The record of a class is kept by a path of the class whose jump is not longer. -/
theorem BestSoFar.keep {all : List OverlapRange} {curPos : Int} {cls : OverlapRange → Bool}
    {n : Nat} {flag : Bool} {id : Nat} {len : Int} {p : OverlapRange}
    (h : BestSoFar all curPos cls n flag id len) (hp : all[n]? = some p)
    (hpos : 0 < curPos - p.curEnd) (hle : ¬ curPos - p.curEnd > len) :
    BestSoFar all curPos cls (n + 1) flag id len := by
  cases hf : flag with
  | false =>
    have := (h.1 hf).1
    omega
  | true =>
    obtain ⟨q, hq, hcq, hlen, hmax, hfirst⟩ := h.2 hf
    refine ⟨fun hf' => (by cases hf'), fun _ => ⟨q, hq, hcq, hlen, fun j x hj hx hcx => ?_, hfirst⟩⟩
    rcases Nat.lt_succ_iff_lt_or_eq.mp hj with h1 | h1
    · exact hmax j x h1 hx hcx
    · subst h1
      rw [hp] at hx
      cases hx
      omega
theorem scanStep_best (d : Detector) (curPos extPos : Int) (all : List OverlapRange)
    (s : ScanState) (n : Nat) (p : OverlapRange) (hp : all[n]? = some p)
    (hc : BestSoFar all curPos (isClose d curPos extPos) n s.extendsClose s.maxCloseId
      s.maxCloseLen)
    (hf : BestSoFar all curPos (isFar d curPos extPos) n s.extendsFar s.maxFarId
      s.maxFarLen) :
    BestSoFar all curPos (isClose d curPos extPos) (n + 1)
      (scanStep d curPos extPos s n p).extendsClose (scanStep d curPos extPos s n p).maxCloseId
      (scanStep d curPos extPos s n p).maxCloseLen ∧
    BestSoFar all curPos (isFar d curPos extPos) (n + 1)
      (scanStep d curPos extPos s n p).extendsFar (scanStep d curPos extPos s n p).maxFarId
      (scanStep d curPos extPos s n p).maxFarLen := by
  unfold scanStep
  simp only []
  cases hj : jumpTest d p.curEnd curPos p.extEnd extPos with
  | J_END =>
    exact ⟨hc.skip hp (by simp [isClose, hj]), hf.skip hp (by simp [isFar, hj])⟩
  | J_INCONS =>
    exact ⟨hc.skip hp (by simp [isClose, hj]), hf.skip hp (by simp [isFar, hj])⟩
  | J_CLOSE =>
    have hpos := (jumpTest_extends_pos d p.curEnd curPos p.extEnd extPos (Or.inl hj)).1
    simp only []
    split_ifs with hgt
    · exact ⟨hc.take hp (by simp [isClose, hj]) hgt, hf.skip hp (by simp [isFar, hj])⟩
    · exact ⟨hc.keep hp hpos hgt, hf.skip hp (by simp [isFar, hj])⟩
  | J_FAR =>
    have hpos := (jumpTest_extends_pos d p.curEnd curPos p.extEnd extPos (Or.inr hj)).1
    simp only []
    split_ifs with hgt
    · exact ⟨hc.skip hp (by simp [isClose, hj]), hf.take hp (by simp [isFar, hj]) hgt⟩
    · exact ⟨hc.skip hp (by simp [isClose, hj]), hf.keep hp hpos hgt⟩

theorem scanPaths_best (d : Detector) (curPos extPos : Int) (all : List OverlapRange) :
    ∀ (rest pre : List OverlapRange) (s : ScanState), all = pre ++ rest →
      BestSoFar all curPos (isClose d curPos extPos) pre.length s.extendsClose s.maxCloseId
        s.maxCloseLen →
      BestSoFar all curPos (isFar d curPos extPos) pre.length s.extendsFar s.maxFarId
        s.maxFarLen →
      BestSoFar all curPos (isClose d curPos extPos) all.length
        (scanPaths d curPos extPos rest pre.length s).extendsClose
        (scanPaths d curPos extPos rest pre.length s).maxCloseId
        (scanPaths d curPos extPos rest pre.length s).maxCloseLen ∧
      BestSoFar all curPos (isFar d curPos extPos) all.length
        (scanPaths d curPos extPos rest pre.length s).extendsFar
        (scanPaths d curPos extPos rest pre.length s).maxFarId
        (scanPaths d curPos extPos rest pre.length s).maxFarLen := by
  intro rest
  induction rest with
  | nil =>
    intro pre s hall hc hf
    have : all.length = pre.length := by simp [hall]
    rw [this]
    exact ⟨hc, hf⟩
  | cons p rest ih =>
    intro pre s hall hc hf
    have hall' : all = (pre ++ [p]) ++ rest := by simp [hall]
    have hget : all[pre.length]? = some p := by
      rw [hall', List.getElem?_append_left (by simp)]
      exact List.getElem?_concat_length pre p
    obtain ⟨hc', hf'⟩ := scanStep_best d curPos extPos all s pre.length p hget hc hf
    have := ih (pre ++ [p]) (scanStep d curPos extPos s pre.length p) hall'
      (by simpa using hc') (by simpa using hf')
    simpa [scanPaths] using this

/-- The scan locals after the loop: the best `J_CLOSE` and the best `J_FAR` path over the
whole vector, and the indices of the `J_CLOSE` paths. -/
theorem scanPaths_init_best (d : Detector) (curPos extPos : Int) (v : List OverlapRange) :
    BestSoFar v curPos (isClose d curPos extPos) v.length
      (scanPaths d curPos extPos v 0 ScanState.init).extendsClose
      (scanPaths d curPos extPos v 0 ScanState.init).maxCloseId
      (scanPaths d curPos extPos v 0 ScanState.init).maxCloseLen ∧
    BestSoFar v curPos (isFar d curPos extPos) v.length
      (scanPaths d curPos extPos v 0 ScanState.init).extendsFar
      (scanPaths d curPos extPos v 0 ScanState.init).maxFarId
      (scanPaths d curPos extPos v 0 ScanState.init).maxFarLen ∧
    (scanPaths d curPos extPos v 0 ScanState.init).eraseMarks =
      closeIdxFrom d curPos extPos v 0 := by
  have hinit : ∀ cls, BestSoFar v curPos cls 0 false 0 0 := fun cls =>
    ⟨fun _ => ⟨rfl, fun j x hj => absurd hj (Nat.not_lt_zero _)⟩, fun h => (by cases h)⟩
  have h := scanPaths_best d curPos extPos v v [] ScanState.init rfl (hinit _) (hinit _)
  have hm := scanPaths_eraseMarks d curPos extPos v 0 ScanState.init
    (fun i hi => absurd hi (List.not_mem_nil _))
  exact ⟨h.1, h.2, by simpa [ScanState.init] using hm⟩
/-! ## The `J_CLOSE` extension -/

theorem mem_closeIdx_zero (d : Detector) (curPos extPos : Int) (v : List OverlapRange)
    (i : Nat) :
    i ∈ closeIdxFrom d curPos extPos v 0 ↔
      ∃ x, v[i]? = some x ∧ isClose d curPos extPos x = true := by
  rw [mem_closeIdxFrom]
  constructor
  · rintro ⟨j, x, hx, hc, hi⟩
    have : i = j := by omega
    subst this
    exact ⟨x, hx, hc⟩
  · rintro ⟨x, hx, hc⟩
    exact ⟨i, x, hx, hc, by omega⟩

theorem unmarkedFrom_eq_filter (marks : List Nat) (cls : OverlapRange → Bool)
    (a : List OverlapRange) (k : Nat)
    (h : ∀ j x, a[j]? = some x → (k + j ∈ marks ↔ cls x = true)) :
    unmarkedFrom marks a k = a.filter (fun x => !cls x) := by
  induction a generalizing k with
  | nil => rfl
  | cons x a ih =>
    have h0 := h 0 x (by simp)
    rw [Nat.add_zero] at h0
    have hrest := ih (k + 1) (fun j y hy => by
      have := h (j + 1) y (by simpa using hy)
      rwa [show k + (j + 1) = k + 1 + j by omega] at this)
    simp only [unmarkedFrom, List.filter_cons, hrest]
    by_cases hc : cls x = true
    · rw [if_pos (h0.mpr hc)]
      simp [hc]
    · rw [if_neg (fun hm => hc (h0.mp hm))]
      simp [hc]

/-- The elements left by the clean-up when the marks are the `J_CLOSE` indices without `m`
and the path at `m` has been replaced by `p'`: `p'` and the paths that are not `J_CLOSE`. -/
theorem unmarked_set_perm (d : Detector) (curPos extPos : Int) (v : List OverlapRange)
    (m : Nat) (p p' : OverlapRange) (hp : v[m]? = some p)
    (hcp : isClose d curPos extPos p = true) :
    (unmarkedFrom ((closeIdxFrom d curPos extPos v 0).erase m) (v.set m p') 0).Perm
      (p' :: v.filter (fun x => !isClose d curPos extPos x)) := by
  have hm : m < v.length := by
    by_contra hn
    rw [List.getElem?_eq_none (by omega)] at hp
    cases hp
  have hvm : v[m] = p := by
    rw [List.getElem?_eq_getElem hm] at hp
    exact Option.some.inj hp
  obtain ⟨pre, post, hv, hpre⟩ : ∃ pre post, v = pre ++ p :: post ∧ pre.length = m := by
    refine ⟨v.take m, v.drop (m + 1), ?_, List.length_take_of_le (Nat.le_of_lt hm)⟩
    rw [← hvm, ← List.drop_eq_getElem_cons hm, List.take_append_drop]
  have hnodup : (closeIdxFrom d curPos extPos v 0).Nodup :=
    (closeIdxFrom_sorted d curPos extPos v 0).imp (fun h => Nat.ne_of_lt h)
  have hmem : ∀ i, i ∈ (closeIdxFrom d curPos extPos v 0).erase m ↔
      i ≠ m ∧ ∃ x, v[i]? = some x ∧ isClose d curPos extPos x = true := by
    intro i
    rw [hnodup.mem_erase_iff, mem_closeIdx_zero]
  have hset : v.set m p' = pre ++ p' :: post := by
    rw [hv, ← hpre, List.set_append_right _ _ (le_refl _)]
    simp
  rw [hset, unmarkedFrom_append]
  have e1 : unmarkedFrom ((closeIdxFrom d curPos extPos v 0).erase m) pre 0 =
      pre.filter (fun x => !isClose d curPos extPos x) := by
    apply unmarkedFrom_eq_filter
    intro j x hx
    have hj : j < pre.length := by
      by_contra hn
      rw [List.getElem?_eq_none (by omega)] at hx
      cases hx
    have hvj : v[j]? = some x := by
      rw [hv, List.getElem?_append_left hj]
      exact hx
    rw [Nat.zero_add, hmem]
    constructor
    · rintro ⟨_, y, hy, hc⟩
      rw [hvj] at hy
      cases hy
      exact hc
    · intro hc
      exact ⟨by omega, x, hvj, hc⟩
  have e2 : unmarkedFrom ((closeIdxFrom d curPos extPos v 0).erase m) (p' :: post)
      (0 + pre.length) = p' :: post.filter (fun x => !isClose d curPos extPos x) := by
    have hnot : 0 + pre.length ∉ (closeIdxFrom d curPos extPos v 0).erase m := by
      rw [hmem]
      rintro ⟨hne, _⟩
      exact hne (by omega)
    simp only [unmarkedFrom, if_neg hnot]
    congr 1
    apply unmarkedFrom_eq_filter
    intro j x hx
    have hvj : v[pre.length + 1 + j]? = some x := by
      rw [hv, List.getElem?_append_right (by omega)]
      rw [show pre.length + 1 + j - pre.length = j + 1 by omega]
      simpa using hx
    rw [show 0 + pre.length + 1 + j = pre.length + 1 + j by omega, hmem]
    constructor
    · rintro ⟨_, y, hy, hc⟩
      rw [hvj] at hy
      cases hy
      exact hc
    · intro hc
      exact ⟨by omega, x, hvj, hc⟩
  have e3 : v.filter (fun x => !isClose d curPos extPos x) =
      pre.filter (fun x => !isClose d curPos extPos x) ++
        post.filter (fun x => !isClose d curPos extPos x) := by
    rw [hv, List.filter_append, List.filter_cons]
    simp [hcp]
  rw [e1, e2, e3]
  exact List.perm_middle

theorem pushCopy_setEnds (v : List OverlapRange) (m i : Nat) (a b : Int) (f : OverlapRange)
    (hf : v[i]? = some f) :
    pushCopy (setEnds v m a b) i a b =
      setEnds v m a b ++ [{ f with curEnd := a, extEnd := b }] := by
  unfold pushCopy
  cases hq : (setEnds v m a b)[i]? with
  | none =>
    have hi : i < v.length := by
      by_contra hn
      rw [List.getElem?_eq_none (by omega)] at hf
      cases hf
    rw [List.getElem?_eq_none_iff, length_setEnds] at hq
    omega
  | some q =>
    obtain ⟨p0, hp0, heq⟩ := getElem?_setEnds hq
    rw [hf] at hp0
    cases hp0
    simp only []
    rw [heq]
theorem not_isClose_of_end (d : Detector) (curPos extPos : Int) (x : OverlapRange)
    (h : x.curEnd = curPos) : jumpTest d x.curEnd curPos x.extEnd extPos ≠ JumpRes.J_CLOSE := by
  intro hc
  have := (jumpTest_extends_pos d x.curEnd curPos x.extEnd extPos (Or.inl hc)).1
  omega

/-- C17: `J_CLOSE` domination.  When a hit is processed against fewer than `MAX_PATHS`
paths of which at least one is classified `J_CLOSE`, the result holds, up to order: the
`J_CLOSE` path `p` with the largest jump length (the first such in index order), with its
end moved to the hit and its begin unchanged; every path that is not `J_CLOSE`, unchanged;
and at most one further path, the copy of a `J_FAR` path with its end moved to the hit.  No
other `J_CLOSE` path is left and no single-point path is started. -/
theorem close_domination (d : Detector) (cur k : ReadId) (curLen extLen curPos extPos : Int)
    (v : List OverlapRange) (hlen : v.length < MAX_PATHS)
    (hclose : ∃ p ∈ v, jumpTest d p.curEnd curPos p.extEnd extPos = JumpRes.J_CLOSE) :
    ∃ (m : Nat) (p : OverlapRange) (extra : List OverlapRange),
      v[m]? = some p ∧ jumpTest d p.curEnd curPos p.extEnd extPos = JumpRes.J_CLOSE ∧
      (∀ q ∈ v, jumpTest d q.curEnd curPos q.extEnd extPos = JumpRes.J_CLOSE →
        curPos - q.curEnd ≤ curPos - p.curEnd) ∧
      (∀ j q, j < m → v[j]? = some q →
        jumpTest d q.curEnd curPos q.extEnd extPos = JumpRes.J_CLOSE →
        curPos - q.curEnd < curPos - p.curEnd) ∧
      (processHit d cur k curLen extLen curPos extPos v).Perm
        ({ p with curEnd := curPos, extEnd := extPos } ::
          (v.filter (fun q =>
              decide (jumpTest d q.curEnd curPos q.extEnd extPos ≠ JumpRes.J_CLOSE)) ++
            extra)) ∧
      (extra = [] ∨ ∃ f ∈ v, jumpTest d f.curEnd curPos f.extEnd extPos = JumpRes.J_FAR ∧
        extra = [{ f with curEnd := curPos, extEnd := extPos }]) ∧
      ((∀ q ∈ v, jumpTest d q.curEnd curPos q.extEnd extPos ≠ JumpRes.J_FAR) → extra = []) ∧
      (∀ x ∈ processHit d cur k curLen extLen curPos extPos v,
        jumpTest d x.curEnd curPos x.extEnd extPos ≠ JumpRes.J_CLOSE) := by
  obtain ⟨hc, hf, hmarks⟩ := scanPaths_init_best d curPos extPos v
  generalize hs : scanPaths d curPos extPos v 0 ScanState.init = s at hc hf hmarks
  -- the scan has found a `J_CLOSE` path
  have hflag : s.extendsClose = true := by
    cases hfl : s.extendsClose with
    | true => rfl
    | false =>
      obtain ⟨p, hp, hj⟩ := hclose
      obtain ⟨j, hjlt, hjp⟩ := List.getElem_of_mem hp
      have := (hc.1 hfl).2 j p hjlt (by rw [List.getElem?_eq_getElem hjlt, hjp])
      simp [isClose, hj] at this
  obtain ⟨p, hp, hcp, hlenp, hmax, hfirst⟩ := hc.2 hflag
  have hjp : jumpTest d p.curEnd curPos p.extEnd extPos = JumpRes.J_CLOSE := by
    simpa [isClose] using hcp
  -- the paths after the updates
  have hpaths1 : setEnds v s.maxCloseId curPos extPos =
      v.set s.maxCloseId { p with curEnd := curPos, extEnd := extPos } := by
    unfold setEnds
    rw [hp]
  obtain ⟨extra, hupd, hextra, hnofar⟩ : ∃ extra : List OverlapRange,
      updatePaths d cur k curLen extLen curPos extPos s v =
        v.set s.maxCloseId { p with curEnd := curPos, extEnd := extPos } ++ extra ∧
      (extra = [] ∨ ∃ f ∈ v, jumpTest d f.curEnd curPos f.extEnd extPos = JumpRes.J_FAR ∧
        extra = [{ f with curEnd := curPos, extEnd := extPos }]) ∧
      (s.extendsFar = false → extra = []) := by
    unfold updatePaths
    simp only [hflag, if_true, Bool.not_true, Bool.false_and, Bool.false_eq_true, if_false]
    cases hfar : s.extendsFar with
    | false =>
      refine ⟨[], ?_, Or.inl rfl, fun _ => rfl⟩
      simp [hpaths1]
    | true =>
      obtain ⟨f, hfget, hcf, _⟩ := hf.2 hfar
      refine ⟨[{ f with curEnd := curPos, extEnd := extPos }], ?_,
        Or.inr ⟨f, List.getElem?_mem hfget, by simpa [isFar] using hcf, rfl⟩,
        fun h => (by cases h)⟩
      simp only [if_true]
      rw [pushCopy_setEnds v _ _ _ _ f hfget, hpaths1]
  have hextralen : extra.length ≤ 1 := by
    rcases hextra with h | ⟨f, _, _, h⟩ <;> simp [h]
  -- the cap is not reached
  have hcap : capMarks (updatePaths d cur k curLen extLen curPos extPos s v)
      (marksAfterClose s) = (closeIdxFrom d curPos extPos v 0).erase s.maxCloseId := by
    unfold capMarks marksAfterClose
    have hl : ¬ (updatePaths d cur k curLen extLen curPos extPos s v).length > MAX_PATHS := by
      rw [hupd, List.length_append, List.length_set]
      omega
    rw [if_neg hl, if_pos hflag, hmarks]
  -- the clean-up
  have hsorted : ((closeIdxFrom d curPos extPos v 0).erase s.maxCloseId).Pairwise
      (fun a b => a < b) :=
    (closeIdxFrom_sorted d curPos extPos v 0).sublist (List.erase_sublist _ _)
  have hbound : ∀ i ∈ (closeIdxFrom d curPos extPos v 0).erase s.maxCloseId, i < v.length := by
    intro i hi
    have := (closeIdxFrom_ge d curPos extPos v 0 i (List.mem_of_mem_erase hi)).2
    omega
  have hperm : (processHit d cur k curLen extLen curPos extPos v).Perm
      ({ p with curEnd := curPos, extEnd := extPos } ::
        (v.filter (fun q => !isClose d curPos extPos q) ++ extra)) := by
    unfold processHit
    simp only [hs, hcap]
    refine (erasePass_exact _ _ hsorted (fun i hi => ?_)).2.trans ?_
    · rw [hupd, List.length_append, List.length_set]
      have := hbound i hi
      omega
    · rw [hupd, unmarked, unmarkedFrom_append,
        unmarkedFrom_of_lt _ extra _ (fun j hj => by
          rw [List.length_set]
          have := hbound j hj
          omega)]
      exact (List.Perm.append_right extra
        (unmarked_set_perm d curPos extPos v s.maxCloseId p _ hp hcp)).trans
        (by simp)
  have hfilter : v.filter (fun q => !isClose d curPos extPos q) =
      v.filter (fun q =>
        decide (jumpTest d q.curEnd curPos q.extEnd extPos ≠ JumpRes.J_CLOSE)) := by
    apply List.filter_congr
    intro q _
    simp [isClose]
  rw [hfilter] at hperm
  refine ⟨s.maxCloseId, p, extra, hp, hjp, ?_, ?_, hperm, hextra, ?_, ?_⟩
  · intro q hq hjq
    obtain ⟨j, hjlt, hjq'⟩ := List.getElem_of_mem hq
    have := hmax j q hjlt (by rw [List.getElem?_eq_getElem hjlt, hjq']) (by simp [isClose, hjq])
    omega
  · intro j q hj hq hjq
    have := hfirst j q hj hq (by simp [isClose, hjq])
    omega
  · intro hno
    apply hnofar
    cases hfar : s.extendsFar with
    | false => rfl
    | true =>
      obtain ⟨f, hfget, hcf, _⟩ := hf.2 hfar
      exact absurd (by simpa [isFar] using hcf) (hno f (List.getElem?_mem hfget))
  · intro x hx
    rcases List.mem_cons.mp (hperm.subset hx) with h | h
    · rw [h]
      exact not_isClose_of_end d curPos extPos _ rfl
    · rcases List.mem_append.mp h with h | h
      · have := (List.mem_filter.mp h).2
        simpa using this
      · rcases hextra with he | ⟨f, _, _, he⟩
        · rw [he] at h
          cases h
        · rw [he, List.mem_singleton] at h
          rw [h]
          exact not_isClose_of_end d curPos extPos _ rfl

/-- Witness for C17: the hit `(3, 4)` against the two `J_CLOSE` paths `closePathA` (jump
length 2) and `closePathB` (jump length 1) leaves `closePathA`, extended to the hit. -/
theorem close_domination_witness :
    [closePathA, closePathB].length < MAX_PATHS ∧
    jumpTest sampleDetector closePathA.curEnd 3 closePathA.extEnd 4 = JumpRes.J_CLOSE ∧
    jumpTest sampleDetector closePathB.curEnd 3 closePathB.extEnd 4 = JumpRes.J_CLOSE ∧
    processHit sampleDetector 0 2 6 7 3 4 [closePathA, closePathB] =
      [{ closePathA with curEnd := 3, extEnd := 4 }] ∧
    (∀ x ∈ processHit sampleDetector 0 2 6 7 3 4 [closePathA, closePathB],
      jumpTest sampleDetector x.curEnd 3 x.extEnd 4 ≠ JumpRes.J_CLOSE) :=
  ⟨by decide, by decide, by decide, by decide,
    (close_domination sampleDetector 0 2 6 7 3 4 [closePathA, closePathB] (by decide)
      ⟨closePathA, List.mem_cons_self _ _, by decide⟩).elim
      (fun _ h => h.elim (fun _ h => h.elim (fun _ h => h.2.2.2.2.2.2.2)))⟩

/-! ## The reduction, extension by extension -/

theorem getReadOverlaps_eq (d : Detector) (q : ReadId) :
    getReadOverlaps d q =
      match activePathsOf d q with
      | none => none
      | some activePaths => reduceAll d (d.seqLen q) activePaths := by
  unfold getReadOverlaps activePathsOf
  cases d.byRead q with
  | none => rfl
  | some kmers => rfl

theorem activePathsOf_eq_runHits (d : Detector) (q : ReadId) (ap : PathMap)
    (h : activePathsOf d q = some ap) :
    ∃ hits : List (Int × ReadPosition), ap = runHits d q (d.seqLen q) hits := by
  unfold activePathsOf at h
  cases hr : d.byRead q with
  | none =>
    rw [hr] at h
    simp only [Option.some.injEq] at h
    exact ⟨[], h.symm⟩
  | some kmers =>
    rw [hr] at h
    exact chainLoop_eq_runHits d q (d.seqLen q) kmers ap h

theorem mem_keys_mapSet {m : PathMap} {k x : ReadId} {v : List OverlapRange}
    (h : x ∈ (mapSet m k v).map Prod.fst) : x ∈ m.map Prod.fst ∨ x = k := by
  obtain ⟨e, he, hx⟩ := List.mem_map.mp h
  rcases mem_mapSet he with h1 | h1
  · exact Or.inl (List.mem_map.mpr ⟨e, h1, hx⟩)
  · rw [h1] at hx
    exact Or.inr hx.symm

theorem nodup_keys_mapSet (m : PathMap) (k : ReadId) (v : List OverlapRange)
    (h : (m.map Prod.fst).Nodup) : ((mapSet m k v).map Prod.fst).Nodup := by
  induction m with
  | nil => simp [mapSet]
  | cons e m ih =>
    obtain ⟨a, b⟩ := e
    simp only [List.map_cons, List.nodup_cons] at h
    simp only [mapSet]
    by_cases hak : a = k
    · rw [if_pos hak]
      simp only [List.map_cons, List.nodup_cons]
      exact ⟨hak ▸ h.1, h.2⟩
    · rw [if_neg hak]
      simp only [List.map_cons, List.nodup_cons]
      refine ⟨fun hmem => ?_, ih h.2⟩
      rcases mem_keys_mapSet hmem with h1 | h1
      · exact h.1 h1
      · exact hak h1

theorem nodup_keys_processExtHit (d : Detector) (cur : ReadId) (curLen : Nat) (curPos : Int)
    (m : PathMap) (hit : ReadPosition) (h : (m.map Prod.fst).Nodup) :
    ((processExtHit d cur curLen curPos m hit).map Prod.fst).Nodup := by
  unfold processExtHit
  split
  · exact h
  · simp only []
    split
    · exact nodup_keys_mapSet m _ _ h
    · exact nodup_keys_mapSet m _ _ h

/-- The keys of `activePaths` are pairwise distinct. -/
theorem nodup_keys_runHits (d : Detector) (cur : ReadId) (curLen : Nat)
    (hits : List (Int × ReadPosition)) : ((runHits d cur curLen hits).map Prod.fst).Nodup := by
  have : ∀ (m : PathMap), (m.map Prod.fst).Nodup →
      ((hits.foldl (hitStep d cur curLen) m).map Prod.fst).Nodup := by
    induction hits with
    | nil => exact fun _ h => h
    | cons hit hits ih =>
      intro m hm
      exact ih _ (nodup_keys_processExtHit d cur curLen hit.1 m hit.2 hm)
  exact this [] List.nodup_nil

theorem mapGet_of_not_mem_keys (m : PathMap) (k : ReadId) (h : k ∉ m.map Prod.fst) :
    mapGet m k = [] := by
  rcases mapGet_nil_or_mem m k with h1 | h1
  · exact h1
  · exact absurd (List.mem_map.mpr ⟨_, h1, rfl⟩) h

theorem reduceStep_mono (d : Detector) (curLen extLen : Int) (s : OverlapRange × Bool)
    (o : OverlapRange) :
    s.1.curRange ≤ (reduceStep d curLen extLen s o).1.curRange ∧
    (overlapTest d o curLen extLen = true →
      o.curRange ≤ (reduceStep d curLen extLen s o).1.curRange) ∧
    ((reduceStep d curLen extLen s o).2 = true ↔
      (s.2 = true ∨ overlapTest d o curLen extLen = true)) := by
  unfold reduceStep
  by_cases ht : overlapTest d o curLen extLen = true
  · rw [if_pos ht]
    dsimp only
    by_cases hlt : s.1.curRange < o.curRange
    · rw [if_pos hlt]
      exact ⟨le_of_lt hlt, fun _ => le_refl _, by simp [ht]⟩
    · rw [if_neg hlt]
      exact ⟨le_refl _, fun _ => by omega, by simp [ht]⟩
  · rw [if_neg ht]
    exact ⟨le_refl _, fun h => absurd h ht, by simp [ht]⟩

theorem foldl_reduceStep_max (d : Detector) (curLen extLen : Int) (l : List OverlapRange) :
    ∀ s : OverlapRange × Bool,
      s.1.curRange ≤ (l.foldl (reduceStep d curLen extLen) s).1.curRange ∧
      (∀ p ∈ l, overlapTest d p curLen extLen = true →
        p.curRange ≤ (l.foldl (reduceStep d curLen extLen) s).1.curRange) ∧
      ((l.foldl (reduceStep d curLen extLen) s).2 = true ↔
        (s.2 = true ∨ ∃ p ∈ l, overlapTest d p curLen extLen = true)) := by
  induction l with
  | nil =>
    intro s
    exact ⟨le_refl _, fun _ h => absurd h (List.not_mem_nil _), by simp⟩
  | cons o l ih =>
    intro s
    obtain ⟨h1, h2, h3⟩ := reduceStep_mono d curLen extLen s o
    obtain ⟨i1, i2, i3⟩ := ih (reduceStep d curLen extLen s o)
    simp only [List.foldl_cons]
    refine ⟨le_trans h1 i1, ?_, ?_⟩
    · intro p hp ht
      rcases List.mem_cons.mp hp with h | h
      · rw [h]
        exact le_trans (h2 (h ▸ ht)) i1
      · exact i2 p h ht
    · rw [i3, h3]
      constructor
      · rintro ((h | h) | ⟨p, hp, ht⟩)
        · exact Or.inl h
        · exact Or.inr ⟨o, List.mem_cons_self _ _, h⟩
        · exact Or.inr ⟨p, List.mem_cons_of_mem _ hp, ht⟩
      · rintro (h | ⟨p, hp, ht⟩)
        · exact Or.inl (Or.inl h)
        · rcases List.mem_cons.mp hp with h | h
          · exact Or.inl (Or.inr (h ▸ ht))
          · exact Or.inr ⟨p, h, ht⟩

/-- `passedTest` is set exactly when some path passes `overlapTest`, and then no passing
path has a larger `curRange` than `maxOverlap`. -/
theorem reducePaths_max (d : Detector) (curLen extLen : Int) (paths : List OverlapRange) :
    ((reducePaths d curLen extLen paths).2 = true ↔
      ∃ p ∈ paths, overlapTest d p curLen extLen = true) ∧
    (∀ p ∈ paths, overlapTest d p curLen extLen = true →
      p.curRange ≤ (reducePaths d curLen extLen paths).1.curRange) := by
  obtain ⟨_, h2, h3⟩ := foldl_reduceStep_max d curLen extLen paths
    (OverlapRange.init 0 0 0 0, false)
  refine ⟨?_, h2⟩
  unfold reducePaths
  rw [h3]
  simp

/-- The overlaps of `detectedOverlaps` whose extension read is `E`: the `maxOverlap` of the
entry `E` with its shifts when `passedTest` is set for this entry, none otherwise. -/
theorem reduceAll_filter (d : Detector) (curLen : Nat) (hmin : 1 ≤ d.minimumOverlap)
    (E : ReadId) (m : PathMap) :
    ∀ res, reduceAll d curLen m = some res → (m.map Prod.fst).Nodup →
      (∀ e ∈ m, ∀ p ∈ e.2, p.extId = e.1) →
      ((reducePaths d curLen (d.seqLen E) (mapGet m E)).2 = true →
        ∃ o, addOverlapShifts d (reducePaths d curLen (d.seqLen E) (mapGet m E)).1 = some o ∧
          res.filter (fun x => decide (x.extId = E)) = [o]) ∧
      ((reducePaths d curLen (d.seqLen E) (mapGet m E)).2 = false →
        res.filter (fun x => decide (x.extId = E)) = []) := by
  induction m with
  | nil =>
    intro res h _ _
    simp only [reduceAll, Option.some.injEq] at h
    subst h
    exact ⟨fun hp => by simp [mapGet, reducePaths] at hp, fun _ => rfl⟩
  | cons e m ih =>
    intro res h hnodup hids
    obtain ⟨a, b⟩ := e
    simp only [List.map_cons, List.nodup_cons] at hnodup
    have hids' : ∀ e ∈ m, ∀ p ∈ e.2, p.extId = e.1 :=
      fun e he => hids e (List.mem_cons_of_mem _ he)
    simp only [reduceAll] at h
    -- the overlap produced by the first entry, if any, has `extId = a`
    have hfirst : ∀ o, (reducePaths d curLen (d.seqLen a) b).2 = true →
        addOverlapShifts d (reducePaths d curLen (d.seqLen a) b).1 = some o → o.extId = a := by
      intro o hp ho
      have hx := (reducePaths_passed d curLen (d.seqLen a) hmin b hp).1
      rw [(addOverlapShifts_fields ho).2.1]
      exact hids (a, b) (List.mem_cons_self _ _) _ hx
    by_cases hae : a = E
    · subst hae
      have hget : mapGet ((a, b) :: m) a = b := by simp [mapGet]
      rw [hget]
      have hrest : mapGet m a = [] := mapGet_of_not_mem_keys m a hnodup.1
      by_cases hp : (reducePaths d curLen (d.seqLen a) b).2 = true
      · simp only [hp, if_true] at h
        cases ha : addOverlapShifts d (reducePaths d curLen (d.seqLen a) b).1 with
        | none => rw [ha] at h; cases h
        | some o =>
          rw [ha] at h
          simp only [] at h
          cases hr : reduceAll d curLen m with
          | none => rw [hr] at h; cases h
          | some os =>
            rw [hr] at h
            simp only [Option.some.injEq] at h
            subst h
            have hnone := (ih os hr hnodup.2 hids').2 (by rw [hrest]; rfl)
            refine ⟨fun _ => ⟨o, rfl, ?_⟩, fun hf => by rw [hp] at hf; cases hf⟩
            rw [List.filter_cons, hnone]
            simp [hfirst o hp ha]
      · simp only [hp] at h
        have hnone := (ih res h hnodup.2 hids').2 (by rw [hrest]; rfl)
        exact ⟨fun hp' => absurd hp' hp, fun _ => hnone⟩
    · have hget : mapGet ((a, b) :: m) E = mapGet m E := by simp [mapGet, hae]
      rw [hget]
      by_cases hp : (reducePaths d curLen (d.seqLen a) b).2 = true
      · simp only [hp, if_true] at h
        cases ha : addOverlapShifts d (reducePaths d curLen (d.seqLen a) b).1 with
        | none => rw [ha] at h; cases h
        | some o =>
          rw [ha] at h
          simp only [] at h
          cases hr : reduceAll d curLen m with
          | none => rw [hr] at h; cases h
          | some os =>
            rw [hr] at h
            simp only [Option.some.injEq] at h
            subst h
            have hne : ¬ o.extId = E := by
              rw [hfirst o hp ha]
              exact hae
            have hfil : (o :: os).filter (fun x => decide (x.extId = E)) =
                os.filter (fun x => decide (x.extId = E)) := by
              rw [List.filter_cons]
              simp [hne]
            rw [hfil]
            exact ih os hr hnodup.2 hids'
      · simp only [hp] at h
        exact ih res h hnodup.2 hids'
/-- C19: per-extension reduction.  With `minimumOverlap ≥ 1`, for every extension read `E`:
when no active path of `E` passes `overlapTest`, no returned overlap has `extId = E`;
otherwise exactly one returned overlap has `extId = E`, its ids and four coordinates are
those of an active path of `E` that passes `overlapTest`, and no passing path of `E` has a
larger `curRange`. -/
theorem per_extension_reduction (d : Detector) (q : ReadId) (res : List OverlapRange)
    (activePaths : PathMap) (E : ReadId) (hmin : 1 ≤ d.minimumOverlap)
    (hres : getReadOverlaps d q = some res) (hap : activePathsOf d q = some activePaths) :
    ((∀ p ∈ mapGet activePaths E, overlapTest d p (d.seqLen q) (d.seqLen E) = false) →
      ∀ o ∈ res, o.extId ≠ E) ∧
    ((∃ p ∈ mapGet activePaths E, overlapTest d p (d.seqLen q) (d.seqLen E) = true) →
      ∃ o p, res.filter (fun x => decide (x.extId = E)) = [o] ∧
        p ∈ mapGet activePaths E ∧ overlapTest d p (d.seqLen q) (d.seqLen E) = true ∧
        o.curId = p.curId ∧ o.extId = p.extId ∧ o.curBegin = p.curBegin ∧
        o.curEnd = p.curEnd ∧ o.extBegin = p.extBegin ∧ o.extEnd = p.extEnd ∧
        ∀ p' ∈ mapGet activePaths E, overlapTest d p' (d.seqLen q) (d.seqLen E) = true →
          p'.curRange ≤ o.curRange) := by
  have hred : reduceAll d (d.seqLen q) activePaths = some res := by
    rw [getReadOverlaps_eq, hap] at hres
    exact hres
  obtain ⟨hits, hhits⟩ := activePathsOf_eq_runHits d q activePaths hap
  have hnodup : (activePaths.map Prod.fst).Nodup := by
    rw [hhits]
    exact nodup_keys_runHits d q (d.seqLen q) hits
  have hids : ∀ e ∈ activePaths, ∀ p ∈ e.2, p.extId = e.1 := by
    intro e he p hp
    rw [hhits] at he
    exact ((runHits_ids d q (d.seqLen q) hits e he).2 p hp).2
  obtain ⟨hyes, hno⟩ := reduceAll_filter d (d.seqLen q) hmin E activePaths res hred hnodup hids
  obtain ⟨hiff, hmax⟩ := reducePaths_max d (d.seqLen q) (d.seqLen E) (mapGet activePaths E)
  constructor
  · intro hnone o ho hoE
    have hfalse : (reducePaths d (d.seqLen q) (d.seqLen E) (mapGet activePaths E)).2 = false := by
      cases hb : (reducePaths d (d.seqLen q) (d.seqLen E) (mapGet activePaths E)).2 with
      | false => rfl
      | true =>
        obtain ⟨p, hp, ht⟩ := hiff.mp hb
        rw [hnone p hp] at ht
        cases ht
    have hmem : o ∈ res.filter (fun x => decide (x.extId = E)) :=
      List.mem_filter.mpr ⟨ho, by simp [hoE]⟩
    rw [hno hfalse] at hmem
    cases hmem
  · intro hsome
    have hpassed := hiff.mpr hsome
    obtain ⟨o, hadd, hfil⟩ := hyes hpassed
    obtain ⟨hx, htest⟩ := reducePaths_passed d (d.seqLen q) (d.seqLen E) hmin _ hpassed
    obtain ⟨f1, f2, f3, f4, f5, f6⟩ := addOverlapShifts_fields hadd
    refine ⟨o, _, hfil, hx, htest, f1, f2, f3, f4, f5, f6, ?_⟩
    intro p' hp' ht'
    have := hmax p' hp' ht'
    unfold OverlapRange.curRange at this ⊢
    rw [f3, f4]
    exact this

/-- Witness for C19: for read `0` of `forkDetector` the extension read `2` has two active
paths, of which the second passes `overlapTest`. -/
theorem per_extension_reduction_witness :
    1 ≤ forkDetector.minimumOverlap ∧
    getReadOverlaps forkDetector 0 = some [{ forkPath with leftShift := 0, rightShift := 1 }] ∧
    activePathsOf forkDetector 0 = some [(2, [OverlapRange.init 0 2 0 0, forkPath])] ∧
    (∃ o p, [{ forkPath with leftShift := 0, rightShift := 1 }].filter
          (fun x => decide (x.extId = 2)) = [o] ∧
        p ∈ mapGet [(2, [OverlapRange.init 0 2 0 0, forkPath])] 2 ∧
        overlapTest forkDetector p (forkDetector.seqLen 0) (forkDetector.seqLen 2) = true ∧
        o.curId = p.curId ∧ o.extId = p.extId ∧ o.curBegin = p.curBegin ∧
        o.curEnd = p.curEnd ∧ o.extBegin = p.extBegin ∧ o.extEnd = p.extEnd ∧
        ∀ p' ∈ mapGet [(2, [OverlapRange.init 0 2 0 0, forkPath])] 2,
          overlapTest forkDetector p' (forkDetector.seqLen 0) (forkDetector.seqLen 2) = true →
          p'.curRange ≤ o.curRange) :=
  ⟨by decide, by decide, by decide,
    (per_extension_reduction forkDetector 0 _ _ 2 (by decide) (by decide) (by decide)).2
      ⟨forkPath, by decide, by decide⟩⟩

/-! ## The median is taken of a non-empty list -/

/-- The nested loops of `getReadOverlaps` process hits that come from the index: the
position of a k-mer of the current read, paired with an occurrence of this k-mer. -/
theorem chainLoop_hits (d : Detector) (cur : ReadId) (curLen : Nat)
    (kmers : List KmerPosition) (m m' : PathMap)
    (h : chainLoop d cur curLen kmers m = some m') :
    ∃ hits : List (Int × ReadPosition), m' = hits.foldl (hitStep d cur curLen) m ∧
      ∀ hit ∈ hits, ∃ kp ∈ kmers, ∃ occs, d.byKmer kp.kmer = some occs ∧ hit.2 ∈ occs ∧
        hit.1 = kp.position := by
  induction kmers generalizing m with
  | nil =>
    simp only [chainLoop, Option.some.injEq] at h
    exact ⟨[], h.symm, fun _ hh => absurd hh (List.not_mem_nil _)⟩
  | cons kp kmers ih =>
    simp only [chainLoop] at h
    cases hk : d.byKmer kp.kmer with
    | none =>
      rw [hk] at h
      cases h
    | some occs =>
      rw [hk] at h
      simp only [] at h
      obtain ⟨hits, hh, hprov⟩ := ih _ h
      refine ⟨occs.map (fun occ => (kp.position, occ)) ++ hits, ?_, ?_⟩
      · rw [List.foldl_append, ← foldl_processExtHit_eq]
        exact hh
      · intro hit hmem
        rcases List.mem_append.mp hmem with h1 | h1
        · obtain ⟨occ, hocc, rfl⟩ := List.mem_map.mp h1
          exact ⟨kp, List.mem_cons_self _ _, occs, hk, hocc, rfl⟩
        · obtain ⟨kp', hkp', rest⟩ := hprov hit h1
          exact ⟨kp', List.mem_cons_of_mem _ hkp', rest⟩

/-- Every active path begins at one of the processed hits. -/
theorem foldl_hitStep_begin (H : Int → ReadPosition → Prop) (d : Detector) (cur : ReadId)
    (curLen : Nat) (hits : List (Int × ReadPosition)) :
    ∀ m : PathMap, (∀ hit ∈ hits, H hit.1 hit.2) →
      (∀ e ∈ m, ∀ p ∈ e.2, ∃ occ, H p.curBegin occ ∧ occ.readId = e.1 ∧
        occ.position = p.extBegin) →
      ∀ e ∈ hits.foldl (hitStep d cur curLen) m, ∀ p ∈ e.2,
        ∃ occ, H p.curBegin occ ∧ occ.readId = e.1 ∧ occ.position = p.extBegin := by
  induction hits with
  | nil => exact fun _ _ hm => hm
  | cons hit hits ih =>
    intro m hH hm
    apply ih _ (fun x hx => hH x (List.mem_cons_of_mem _ hx))
    have hhit := hH hit (List.mem_cons_self _ _)
    intro e he p hp
    unfold hitStep processExtHit at he
    by_cases hself : hit.2.readId = cur
    · rw [if_pos hself] at he
      exact hm e he p hp
    · rw [if_neg hself] at he
      simp only [] at he
      have hget : ∀ x ∈ mapGet m hit.2.readId, ∃ occ, H x.curBegin occ ∧
          occ.readId = hit.2.readId ∧ occ.position = x.extBegin := by
        intro x hx
        rcases mapGet_nil_or_mem m hit.2.readId with h | h
        · rw [h] at hx
          cases hx
        · exact hm _ h x hx
      split at he
      · rcases mem_mapSet he with h | h
        · exact hm e h p hp
        · rw [h] at hp ⊢
          exact hget p hp
      · rcases mem_mapSet he with h | h
        · exact hm e h p hp
        · rw [h] at hp ⊢
          rcases mem_processHit hp with h1 | ⟨x, hx, _, hpx⟩ | ⟨h1, _⟩
          · exact hget p h1
          · rw [hpx]
            exact hget x hx
          · rw [h1]
            exact ⟨hit.2, hhit, rfl, rfl⟩

theorem collectShifts_isSome (d : Detector) (x : OverlapRange) (kmers : List KmerPosition)
    (hkeys : ∀ kp ∈ kmers, ∃ occs, d.byKmer kp.kmer = some occs) :
    ∃ shifts, collectShifts d x kmers = some shifts := by
  induction kmers with
  | nil => exact ⟨[], rfl⟩
  | cons kp kmers ih =>
    obtain ⟨more, hmore⟩ := ih (fun kp' h => hkeys kp' (List.mem_cons_of_mem _ h))
    obtain ⟨occs, hoccs⟩ := hkeys kp (List.mem_cons_self _ _)
    simp only [collectShifts, hoccs, hmore]
    split
    · exact ⟨_, rfl⟩
    · exact ⟨_, rfl⟩

theorem mem_sharedHits (d : Detector) (kmers : List KmerPosition) (kp : KmerPosition)
    (occs : List ReadPosition) (occ : ReadPosition) (hkp : kp ∈ kmers)
    (hoccs : d.byKmer kp.kmer = some occs) (hocc : occ ∈ occs) :
    (kp, occ) ∈ sharedHits d kmers := by
  unfold sharedHits
  rw [List.mem_flatMap]
  refine ⟨kp, hkp, ?_⟩
  rw [hoccs]
  exact List.mem_map.mpr ⟨occ, hocc, rfl⟩

theorem median_isSome (vec : List Int) (h : vec ≠ []) :
    vec.length / 2 < (vec.insertionSort (fun a b => a ≤ b)).length ∧
    ∃ m, median vec = some m := by
  have hpos : 0 < vec.length := List.length_pos.mpr h
  have hlt : vec.length / 2 < (vec.insertionSort (fun a b => a ≤ b)).length := by
    rw [List.length_insertionSort]
    omega
  exact ⟨hlt, _, List.getElem?_eq_getElem hlt⟩

theorem chainLoop_isSome (d : Detector) (cur : ReadId) (curLen : Nat)
    (kmers : List KmerPosition)
    (hkeys : ∀ kp ∈ kmers, ∃ occs, d.byKmer kp.kmer = some occs) :
    ∀ m, ∃ m', chainLoop d cur curLen kmers m = some m' := by
  induction kmers with
  | nil => exact fun m => ⟨m, rfl⟩
  | cons kp kmers ih =>
    intro m
    obtain ⟨occs, hoccs⟩ := hkeys kp (List.mem_cons_self _ _)
    simp only [chainLoop, hoccs]
    exact ih (fun kp' h => hkeys kp' (List.mem_cons_of_mem _ h)) _

theorem reduceAll_isSome (d : Detector) (curLen : Nat) (m : PathMap)
    (h : ∀ e ∈ m, (reducePaths d curLen (d.seqLen e.1) e.2).2 = true →
      ∃ o, addOverlapShifts d (reducePaths d curLen (d.seqLen e.1) e.2).1 = some o) :
    ∃ res, reduceAll d curLen m = some res := by
  induction m with
  | nil => exact ⟨[], rfl⟩
  | cons e m ih =>
    obtain ⟨os, hos⟩ := ih (fun e' he' => h e' (List.mem_cons_of_mem _ he'))
    simp only [reduceAll, hos]
    by_cases hp : (reducePaths d curLen (d.seqLen e.1) e.2).2 = true
    · obtain ⟨o, ho⟩ := h e (List.mem_cons_self _ _) hp
      simp only [hp, if_true, ho]
      exact ⟨_, rfl⟩
    · simp only [hp]
      exact ⟨os, rfl⟩
/-- An ordered overlap of the current read that begins at a hit of the index has this hit
among its shifts, so `addOverlapShifts` takes the median of a non-empty list. -/
theorem addOverlapShifts_defined (d : Detector) (x : OverlapRange) (kmers : List KmerPosition)
    (hread : d.byRead x.curId = some kmers)
    (hkeys : ∀ kp ∈ kmers, ∃ occs, d.byKmer kp.kmer = some occs)
    (hord : x.curBegin ≤ x.curEnd ∧ x.extBegin ≤ x.extEnd)
    (kp : KmerPosition) (occs : List ReadPosition) (occ : ReadPosition) (hkp : kp ∈ kmers)
    (hoccs : d.byKmer kp.kmer = some occs) (hocc : occ ∈ occs)
    (hcur : x.curBegin = kp.position) (hid : occ.readId = x.extId)
    (hext : occ.position = x.extBegin) :
    ∃ shifts m, collectShifts d x kmers = some shifts ∧
      (kp, occ) ∈ sharedHits d kmers ∧ insideOverlap x (kp, occ) = true ∧
      x.curBegin - x.extBegin ∈ shifts ∧ shifts ≠ [] ∧
      shifts.length / 2 < (shifts.insertionSort (fun a b => a ≤ b)).length ∧
      median shifts = some m ∧
      addOverlapShifts d x = some { x with
        leftShift := m
        rightShift := (d.seqLen x.extId : Int) - (d.seqLen x.curId : Int) + m } := by
  obtain ⟨shifts, hshifts⟩ := collectShifts_isSome d x kmers hkeys
  have hshared := mem_sharedHits d kmers kp occs occ hkp hoccs hocc
  have hinside : insideOverlap x (kp, occ) = true := by
    simp only [insideOverlap, Bool.and_eq_true, decide_eq_true_eq]
    refine ⟨⟨?_, ?_⟩, ⟨hid, ?_⟩, ?_⟩ <;> omega
  have hmem : x.curBegin - x.extBegin ∈ shifts := by
    rw [collectShifts_eq_hitOffsets d x kmers shifts hshifts]
    unfold hitOffsets
    refine List.mem_map.mpr ⟨(kp, occ), List.mem_filter.mpr ⟨hshared, hinside⟩, ?_⟩
    show kp.position - occ.position = x.curBegin - x.extBegin
    rw [hcur, hext]
  have hne : shifts ≠ [] := List.ne_nil_of_mem hmem
  obtain ⟨hlt, m, hm⟩ := median_isSome shifts hne
  refine ⟨shifts, m, hshifts, hshared, hinside, hmem, hne, hlt, hm, ?_⟩
  unfold addOverlapShifts
  simp only [hread, hshifts, hm]

/-- C20: the median is never taken of an empty list.  When every k-mer of `byRead` is a key
of `byKmer` and `minimumOverlap ≥ 1`, the loops of `getReadOverlaps` end, the function
returns, and each overlap that is passed to `addOverlapShifts` (the `maxOverlap` of an entry
whose `passedTest` is set) has a shared k-mer hit inside `[curBegin, curEnd]` and
`[extBegin, extEnd]`, the one at `(curBegin, extBegin)`: the list of shifts is non-empty and
the index `size / 2` is within the sorted list. -/
theorem median_never_empty (d : Detector) (q : ReadId)
    (hcons : ∀ r kmers, d.byRead r = some kmers →
      ∀ kp ∈ kmers, ∃ occs, d.byKmer kp.kmer = some occs)
    (hmin : 1 ≤ d.minimumOverlap) :
    ∃ activePaths res, activePathsOf d q = some activePaths ∧
      getReadOverlaps d q = some res ∧
      ∀ e ∈ activePaths, (reducePaths d (d.seqLen q) (d.seqLen e.1) e.2).2 = true →
        ∃ kmers hit shifts m,
          d.byRead (reducePaths d (d.seqLen q) (d.seqLen e.1) e.2).1.curId = some kmers ∧
          hit ∈ sharedHits d kmers ∧
          insideOverlap (reducePaths d (d.seqLen q) (d.seqLen e.1) e.2).1 hit = true ∧
          hit.1.position = (reducePaths d (d.seqLen q) (d.seqLen e.1) e.2).1.curBegin ∧
          hit.2.position = (reducePaths d (d.seqLen q) (d.seqLen e.1) e.2).1.extBegin ∧
          collectShifts d (reducePaths d (d.seqLen q) (d.seqLen e.1) e.2).1 kmers =
            some shifts ∧
          shifts ≠ [] ∧
          shifts.length / 2 < (shifts.insertionSort (fun a b => a ≤ b)).length ∧
          median shifts = some m ∧
          (addOverlapShifts d (reducePaths d (d.seqLen q) (d.seqLen e.1) e.2).1).isSome := by
  cases hr : d.byRead q with
  | none =>
    refine ⟨[], [], by simp [activePathsOf, hr], by simp [getReadOverlaps, hr], ?_⟩
    intro e he
    cases he
  | some kmers =>
    have hkeys := hcons q kmers hr
    obtain ⟨ap, hap⟩ := chainLoop_isSome d q (d.seqLen q) kmers hkeys []
    obtain ⟨hits, hfold, hprov⟩ := chainLoop_hits d q (d.seqLen q) kmers [] ap hap
    have hrun : ap = runHits d q (d.seqLen q) hits := hfold
    have hbegin := foldl_hitStep_begin
      (fun c occ => ∃ kp ∈ kmers, ∃ occs, d.byKmer kp.kmer = some occs ∧ occ ∈ occs ∧
        c = kp.position) d q (d.seqLen q) hits [] hprov
      (fun _ h => absurd h (List.not_mem_nil _))
    rw [← hfold] at hbegin
    have hmain : ∀ e ∈ ap, (reducePaths d (d.seqLen q) (d.seqLen e.1) e.2).2 = true →
        ∃ kmers hit shifts m,
          d.byRead (reducePaths d (d.seqLen q) (d.seqLen e.1) e.2).1.curId = some kmers ∧
          hit ∈ sharedHits d kmers ∧
          insideOverlap (reducePaths d (d.seqLen q) (d.seqLen e.1) e.2).1 hit = true ∧
          hit.1.position = (reducePaths d (d.seqLen q) (d.seqLen e.1) e.2).1.curBegin ∧
          hit.2.position = (reducePaths d (d.seqLen q) (d.seqLen e.1) e.2).1.extBegin ∧
          collectShifts d (reducePaths d (d.seqLen q) (d.seqLen e.1) e.2).1 kmers =
            some shifts ∧
          shifts ≠ [] ∧
          shifts.length / 2 < (shifts.insertionSort (fun a b => a ≤ b)).length ∧
          median shifts = some m ∧
          (addOverlapShifts d (reducePaths d (d.seqLen q) (d.seqLen e.1) e.2).1).isSome := by
      intro e he hpassed
      obtain ⟨hx, _⟩ := reducePaths_passed d (d.seqLen q) (d.seqLen e.1) hmin e.2 hpassed
      generalize (reducePaths d (d.seqLen q) (d.seqLen e.1) e.2).1 = x at hx ⊢
      have he' : e ∈ runHits d q (d.seqLen q) hits := hrun ▸ he
      obtain ⟨hcur, hextid⟩ := (runHits_ids d q (d.seqLen q) hits e he').2 x hx
      have hord := (runHits_ordered d q (d.seqLen q) hits e he').2 x hx
      obtain ⟨occ, ⟨kp, hkp, occs, hoccs, hocc, hpos⟩, hoid, hopos⟩ := hbegin e he x hx
      have hread : d.byRead x.curId = some kmers := by rw [hcur, hr]
      obtain ⟨shifts, m, h1, h2, h3, _, h5, h6, h7, h8⟩ :=
        addOverlapShifts_defined d x kmers hread hkeys hord kp occs occ hkp hoccs hocc hpos
          (hoid.trans hextid.symm) hopos
      exact ⟨kmers, (kp, occ), shifts, m, hread, h2, h3, hpos.symm, hopos, h1, h5, h6, h7,
        by rw [h8]; rfl⟩
    obtain ⟨res, hres⟩ := reduceAll_isSome d (d.seqLen q) ap (fun e he hp => by
      obtain ⟨_, _, _, _, _, _, _, _, _, _, _, _, _, hsome⟩ := hmain e he hp
      exact Option.isSome_iff_exists.mp hsome)
    refine ⟨ap, res, by simp [activePathsOf, hr, hap], ?_, hmain⟩
    rw [getReadOverlaps_eq]
    simp only [activePathsOf, hr, hap, hres]

/-- Witness for C20: read `0` of `forkDetector`; the overlap passed to `addOverlapShifts`
has the shifts `[0, −1]`. -/
theorem median_never_empty_witness :
    (∀ r kmers, forkDetector.byRead r = some kmers →
      ∀ kp ∈ kmers, ∃ occs, forkDetector.byKmer kp.kmer = some occs) ∧
    1 ≤ forkDetector.minimumOverlap ∧
    collectShifts forkDetector forkPath [⟨10, 0⟩, ⟨11, 3⟩] = some [0, -1] ∧
    (∃ activePaths res, activePathsOf forkDetector 0 = some activePaths ∧
      getReadOverlaps forkDetector 0 = some res ∧
      ∀ e ∈ activePaths,
        (reducePaths forkDetector (forkDetector.seqLen 0) (forkDetector.seqLen e.1) e.2).2 =
          true →
        ∃ kmers hit shifts m,
          forkDetector.byRead (reducePaths forkDetector (forkDetector.seqLen 0)
            (forkDetector.seqLen e.1) e.2).1.curId = some kmers ∧
          hit ∈ sharedHits forkDetector kmers ∧
          insideOverlap (reducePaths forkDetector (forkDetector.seqLen 0)
            (forkDetector.seqLen e.1) e.2).1 hit = true ∧
          hit.1.position = (reducePaths forkDetector (forkDetector.seqLen 0)
            (forkDetector.seqLen e.1) e.2).1.curBegin ∧
          hit.2.position = (reducePaths forkDetector (forkDetector.seqLen 0)
            (forkDetector.seqLen e.1) e.2).1.extBegin ∧
          collectShifts forkDetector (reducePaths forkDetector (forkDetector.seqLen 0)
            (forkDetector.seqLen e.1) e.2).1 kmers = some shifts ∧
          shifts ≠ [] ∧
          shifts.length / 2 < (shifts.insertionSort (fun a b => a ≤ b)).length ∧
          median shifts = some m ∧
          (addOverlapShifts forkDetector (reducePaths forkDetector (forkDetector.seqLen 0)
            (forkDetector.seqLen e.1) e.2).1).isSome) :=
  have hcons : ∀ r kmers, forkDetector.byRead r = some kmers →
      ∀ kp ∈ kmers, ∃ occs, forkDetector.byKmer kp.kmer = some occs := by
    intro r kmers hr kp hkp
    have hk : kp.kmer = 10 ∨ kp.kmer = 11 := by
      simp only [forkDetector] at hr
      split_ifs at hr <;> simp only [Option.some.injEq, reduceCtorEq] at hr <;> subst hr <;>
        simp at hkp <;> rcases hkp with h | h <;> simp [h]
    rcases hk with h | h <;> rw [h] <;> exact ⟨_, rfl⟩
  ⟨hcons, by decide, by decide, median_never_empty forkDetector 0 hcons (by decide)⟩

end Overlap
